import Mathlib

/-!
# Verification of the renoter onion-wrap / onion-peel pipeline

Shallow embedding of the core of `girino/renoter` (Go).  The repository
snapshot contains several revisions of some files; the embedding follows the
revision set that forms one coherent Go module:

* `internal/config/config.go` — the revision that defines `PoWDifficulty`
  (required by `pkg/server/handler.go`): `WrapperEventKind = 29000`,
  `StandardizedWrapperKind = 29001`, `StandardizedSize = 32 * 1024`,
  `PoWDifficulty = 20`.
* `pkg/client/path.go` — the revision defining `ShufflePath` (required by
  `pkg/client/relay.go`), i.e. the one with the duplicate-path check.
* `pkg/client/wrapper.go` — the revision with `padEventToExactSize` and the
  29001 standardized container (first chunk of the file).
* `pkg/server/handler.go` — the revision with `padEventToExactSize`,
  `nip13.Check` and the re-wrap step (third chunk of the file).
* `pkg/server/renoter.go` — the inline replay cache in `Renoter.ProcessEvent`.
* `pkg/server/cache.go` (`EventCache`) — the class with `CheckAndMark`,
  `cleanupOldEventsLocked` (binary search) and `pruneLocked`.

External collaborators (the relay library, NIP-44 encryption, SHA-256,
Schnorr signatures, NIP-19 bech32 decoding, JSON parsing, the RNG) are
modelled as parameters; JSON **serialization** of events is modelled
concretely (go-nostr's `Event.MarshalJSON` field order) because the padding
arithmetic depends on its byte layout.  Serialized size is measured as the
length of the character sequence (bytes and characters coincide on the
ASCII alphabets the padding arithmetic manipulates).  Wall-clock instants
are modelled as integer seconds.
-/

set_option maxRecDepth 40000

/-- Byte strings / Go strings are modelled as lists of characters. -/
abbrev Str := List Char

/-! ## Hex encoding (`encoding/hex`) -/

/-- The lowercase hex digit for `n % 16`, as in Go's `hex.EncodeToString`. -/
def hexDigitChar (n : Nat) : Char :=
  ("0123456789abcdef").data.getD (n % 16) '0'

/-- One byte becomes two hex characters. -/
def hexEncodeByte (b : Nat) : Str :=
  [hexDigitChar (b / 16), hexDigitChar b]

/-- `hex.EncodeToString` on a byte slice. -/
def hexEncode (bs : List Nat) : Str :=
  (bs.map hexEncodeByte).flatten

/-- Numeric value of a hex character (`encoding/hex` alphabet). -/
def hexVal? (c : Char) : Option Nat :=
  if '0' ≤ c ∧ c ≤ '9' then some (c.toNat - 48)
  else if 'a' ≤ c ∧ c ≤ 'f' then some (c.toNat - 87)
  else if 'A' ≤ c ∧ c ≤ 'F' then some (c.toNat - 55)
  else none

/-- `hex.DecodeString`: fails on odd length or non-hex characters. -/
def hexDecode : Str → Option (List Nat)
  | [] => some []
  | [_] => none
  | c1 :: c2 :: rest =>
    match hexVal? c1, hexVal? c2, hexDecode rest with
    | some h, some l, some bs => some ((16 * h + l) :: bs)
    | _, _, _ => none

/-! ## JSON string escaping and event serialization

Models go-nostr's `Event.MarshalJSON`: an object with fields in struct
order `id, pubkey, created_at, kind, tags, content, sig`; strings are
JSON-escaped. -/

/-- JSON escaping of one character. -/
def escChar (c : Char) : Str :=
  if c = '"' then ['\\', '"']
  else if c = '\\' then ['\\', '\\']
  else if c = '\n' then ['\\', 'n']
  else if c = '\r' then ['\\', 'r']
  else if c = '\t' then ['\\', 't']
  else if c.toNat < 32 then
    ['\\', 'u', '0', '0', hexDigitChar (c.toNat / 16), hexDigitChar c.toNat]
  else [c]

/-- JSON escaping of a string body. -/
def escapeStr (s : Str) : Str := (s.map escChar).flatten

/-- A JSON string literal: quotes around the escaped body. -/
def jstr (s : Str) : Str := '"' :: (escapeStr s ++ ['"'])

/-- Comma-join a list of fragments. -/
def joinComma : List Str → Str
  | [] => []
  | [x] => x
  | x :: xs => x ++ ',' :: joinComma xs

/-- A tag (`nostr.Tag`, a string array) as JSON. -/
def serTag (t : List Str) : Str :=
  '[' :: (joinComma (t.map jstr) ++ [']'])

/-- A tag list (`nostr.Tags`) as JSON. -/
def serTags (ts : List (List Str)) : Str :=
  '[' :: (joinComma (ts.map serTag) ++ [']'])

/-- An integer in JSON (decimal). -/
def serInt (i : Int) : Str := (toString i).data

/-- A natural number in JSON (decimal). -/
def serNat (n : Nat) : Str := (toString n).data

/-- The event record (`nostr.Event`).  `id`, `pubkey`, `sig` are hex
strings; `created_at` is Unix seconds. -/
structure NEvent where
  id : Str
  pubkey : Str
  created_at : Int
  kind : Nat
  tags : List (List Str)
  content : Str
  sig : Str
deriving DecidableEq, Repr

/-- `json.Marshal` of an event (go-nostr `Event.MarshalJSON`). -/
def serEvent (e : NEvent) : Str :=
  ("\x7b\"id\":").data ++ jstr e.id
    ++ (",\"pubkey\":").data ++ jstr e.pubkey
    ++ (",\"created_at\":").data ++ serInt e.created_at
    ++ (",\"kind\":").data ++ serNat e.kind
    ++ (",\"tags\":").data ++ serTags e.tags
    ++ (",\"content\":").data ++ jstr e.content
    ++ (",\"sig\":").data ++ jstr e.sig
    ++ ("\x7d").data

/-- The NIP-01 canonical serialization `[0,pubkey,created_at,kind,tags,content]`
whose SHA-256 is the event id (`Event.GetID` hashes this array). -/
def canonicalSer (e : NEvent) : Str :=
  ("[0,").data ++ jstr e.pubkey
    ++ (",").data ++ serInt e.created_at
    ++ (",").data ++ serNat e.kind
    ++ (",").data ++ serTags e.tags
    ++ (",").data ++ jstr e.content
    ++ ("]").data

/-! ## Configuration constants (`internal/config/config.go`) -/

/-- Ephemeral kind of inner wrapper (routing) events. -/
def WrapperEventKind : Nat := 29000

/-- Ephemeral kind of outer standardized containers. -/
def StandardizedWrapperKind : Nat := 29001

/-- Target size for standardized wrapper events: `32 * 1024` bytes. -/
def StandardizedSize : Nat := 32 * 1024

/-- Proof-of-work difficulty required of 29000 wrapper events. -/
def PoWDifficulty : Nat := 20

/-! ## The Padder (`padEventToExactSize`, identical in
`pkg/client/wrapper.go` and `pkg/server/handler.go`) -/

/-- Append a `["padding", s]` tag (the Go code's `append(Tags, Tag{"padding", s})`
on the copied event; a nil tag list is normalized to the empty list first,
which the `List` model subsumes). -/
def addPaddingTag (e : NEvent) (s : Str) : NEvent :=
  { e with tags := e.tags ++ [[("padding").data, s]] }

/-- `padEventToExactSize(event, targetSize)`.  The crypto RNG behind
`rand.Read` is the parameter `rnd` (an infinite tape of bytes).  Mirrors the
Go control flow: measure the event, measure the empty-padding-tag overhead,
reject if the base already exceeds the target, generate `⌈needed/2⌉` random
bytes, hex-encode, truncate to the exact length, append the tag, and
re-verify the final size. -/
def padEventToExactSize (rnd : Nat → Nat) (e : NEvent) (targetSize : Nat) :
    Option NEvent :=
  let currentSize := (serEvent e).length
  let tagBaseSize := (serEvent (addPaddingTag e [])).length - currentSize
  let totalSize := currentSize + tagBaseSize
  if targetSize < totalSize then none
  else
    let paddingNeeded := targetSize - totalSize
    let paddingBytes := (List.range ((paddingNeeded + 1) / 2)).map (fun i => rnd i % 256)
    let paddingString := (hexEncode paddingBytes).take paddingNeeded
    let padded := addPaddingTag e paddingString
    if (serEvent padded).length = targetSize then some padded else none

/-! ### Length lemmas for the padder -/

theorem length_jstr (s : Str) : (jstr s).length = (escapeStr s).length + 2 := by
  simp [jstr]

theorem escapeStr_nil : escapeStr [] = [] := rfl

theorem joinComma_snoc_cons (x y : Str) (xs : List Str) :
    joinComma (x :: xs ++ [y]) = x ++ ',' :: joinComma (xs ++ [y]) := by
  cases xs <;> simp [joinComma]

theorem length_joinComma_snoc (xs : List Str) (y : Str) :
    (joinComma (xs ++ [y])).length =
      (joinComma xs).length + y.length + (if xs.isEmpty then 0 else 1) := by
  induction xs with
  | nil => simp [joinComma]
  | cons x xs ih =>
    rw [joinComma_snoc_cons]
    cases xs with
    | nil =>
      simp [joinComma]
      omega
    | cons x' xs' =>
      simp only [List.isEmpty_cons] at ih ⊢
      simp only [joinComma, List.length_append, List.length_cons, ih]
      simp
      omega

theorem length_serTags_snoc (ts : List (List Str)) (t : List Str) :
    (serTags (ts ++ [t])).length =
      (serTags ts).length + (serTag t).length + (if ts.isEmpty then 0 else 1) := by
  have h := length_joinComma_snoc (ts.map serTag) (serTag t)
  simp only [serTags, List.map_append, List.map_cons, List.map_nil, List.length_cons,
    List.length_append, h]
  cases ts <;> simp <;> omega

theorem length_serTag_padding (s : Str) :
    (serTag [("padding").data, s]).length =
      (serTag [("padding").data, []]).length + (escapeStr s).length := by
  simp [serTag, joinComma, jstr, escapeStr]
  omega

/-- Appending a `["padding", s]` tag grows the serialized event by exactly
the escaped length of `s` beyond the empty-padding-tag version. -/
theorem length_serEvent_addPaddingTag (e : NEvent) (s : Str) :
    (serEvent (addPaddingTag e s)).length =
      (serEvent (addPaddingTag e [])).length + (escapeStr s).length := by
  have hs := length_serTags_snoc e.tags [("padding").data, s]
  have h0 := length_serTags_snoc e.tags [("padding").data, []]
  have htag := length_serTag_padding s
  simp only [serEvent, addPaddingTag, List.length_append, hs, h0, htag]
  omega

/-- Adding the empty padding tag costs a fixed, positive overhead. -/
theorem length_serEvent_addEmptyPad (e : NEvent) :
    (serEvent (addPaddingTag e [])).length =
      (serEvent e).length + (serTag [("padding").data, []]).length
        + (if e.tags.isEmpty then 0 else 1) := by
  have h0 := length_serTags_snoc e.tags [("padding").data, []]
  simp only [serEvent, addPaddingTag, List.length_append, h0]
  omega

theorem le_length_serEvent_addEmptyPad (e : NEvent) :
    (serEvent e).length ≤ (serEvent (addPaddingTag e [])).length := by
  rw [length_serEvent_addEmptyPad]
  omega

/-! ### Hex strings pass through JSON escaping unchanged -/

/-- Characters of the lowercase hex alphabet. -/
def IsHexStr (s : Str) : Prop := ∀ c ∈ s, c ∈ ("0123456789abcdef").data

instance (s : Str) : Decidable (IsHexStr s) := by
  unfold IsHexStr
  infer_instance

theorem escChar_of_hexAlphabet {c : Char} (h : c ∈ ("0123456789abcdef").data) :
    escChar c = [c] := by
  fin_cases h <;> decide

theorem escapeStr_of_hex {s : Str} (h : IsHexStr s) : escapeStr s = s := by
  induction s with
  | nil => rfl
  | cons c cs ih =>
    have hc : escChar c = [c] := escChar_of_hexAlphabet (h c (by simp))
    have hcs := ih (fun x hx => h x (by simp [hx]))
    simp only [escapeStr, List.map_cons, List.flatten_cons] at hcs ⊢
    simp [hc, hcs]

theorem hexDigitChar_mem (n : Nat) : hexDigitChar n ∈ ("0123456789abcdef").data := by
  have hlt : n % 16 < ("0123456789abcdef").data.length := by
    have := @Nat.mod_lt n 16 (by omega)
    simpa using this
  rw [hexDigitChar, List.getD_eq_getElem _ _ hlt]
  exact List.getElem_mem hlt

theorem isHexStr_hexEncode (bs : List Nat) : IsHexStr (hexEncode bs) := by
  intro c hc
  induction bs with
  | nil => simp [hexEncode] at hc
  | cons b bs ih =>
    simp only [hexEncode, List.map_cons, List.flatten_cons, List.mem_append] at hc
    rcases hc with hc | hc
    · simp only [hexEncodeByte, List.mem_cons, List.not_mem_nil, or_false] at hc
      rcases hc with rfl | rfl <;> exact hexDigitChar_mem _
    · exact ih hc

theorem isHexStr_take {s : Str} (n : Nat) (h : IsHexStr s) : IsHexStr (s.take n) :=
  fun c hc => h c (List.mem_of_mem_take hc)

theorem length_hexEncode (bs : List Nat) : (hexEncode bs).length = 2 * bs.length := by
  induction bs with
  | nil => rfl
  | cons b bs ih =>
    simp only [hexEncode, List.map_cons, List.flatten_cons, List.length_append,
      List.length_cons] at ih ⊢
    simp [hexEncodeByte, ih]
    omega

/-! ### Characterization of the padder -/

/-- The padder fails exactly when the event plus the empty-padding-tag
overhead exceeds the target; on success it returns the event with one
appended `["padding", <hex>]` tag and the exact target serialized size. -/
theorem padEventToExactSize_spec (rnd : Nat → Nat) (e : NEvent) (L : Nat) :
    (padEventToExactSize rnd e L = none ↔
      L < (serEvent (addPaddingTag e [])).length) ∧
    (∀ ev, padEventToExactSize rnd e L = some ev →
      ∃ s, IsHexStr s ∧ ev = addPaddingTag e s ∧ (serEvent ev).length = L) := by
  have hle := le_length_serEvent_addEmptyPad e
  have htot : (serEvent e).length +
      ((serEvent (addPaddingTag e [])).length - (serEvent e).length) =
      (serEvent (addPaddingTag e [])).length := by omega
  by_cases hbig : L < (serEvent (addPaddingTag e [])).length
  · constructor
    · rw [padEventToExactSize]
      simp only [htot, if_pos hbig]
      simp [hbig]
    · intro ev hev
      rw [padEventToExactSize] at hev
      simp only [htot, if_pos hbig] at hev
      exact absurd hev (by simp)
  · -- success branch: the final size re-check always passes
    push_neg at hbig
    set pn := L - (serEvent (addPaddingTag e [])).length with hpn
    have hn : L - ((serEvent e).length +
        ((serEvent (addPaddingTag e [])).length - (serEvent e).length)) = pn := by
      omega
    set bytes := (List.range ((pn + 1) / 2)).map (fun i => rnd i % 256) with hbytes
    set ps := (hexEncode bytes).take pn with hps
    have hpslen : ps.length = pn := by
      rw [hps, List.length_take, length_hexEncode, hbytes, List.length_map,
        List.length_range]
      omega
    have hpshex : IsHexStr ps := isHexStr_take _ (isHexStr_hexEncode bytes)
    have hfinal : (serEvent (addPaddingTag e ps)).length = L := by
      rw [length_serEvent_addPaddingTag, escapeStr_of_hex hpshex, hpslen]
      omega
    have hrun : padEventToExactSize rnd e L = some (addPaddingTag e ps) := by
      rw [padEventToExactSize]
      simp only [htot, if_neg (by omega : ¬ L < (serEvent (addPaddingTag e [])).length), hn]
      rw [← hbytes, ← hps, if_pos hfinal]
    constructor
    · simp [hrun]
      omega
    · intro ev hev
      rw [hrun] at hev
      exact ⟨ps, hpshex, (Option.some_injective _ hev).symm, by
        rw [← (Option.some_injective _ hev)]; exact hfinal⟩


/-! ## Stripping padding tags (`pkg/server/handler.go`, `HandleEvent`)

The peel step rebuilds the decrypted inner event's tag list, keeping exactly
the tags with `len(tag) > 0 && tag[0] != "padding"`. -/

/-- Remove padding tags as `HandleEvent` does. -/
def stripPaddingTags (e : NEvent) : NEvent :=
  { e with tags := e.tags.filter (fun t => decide (t ≠ [] ∧ t.headD [] ≠ ("padding").data)) }

theorem stripPaddingTags_addPaddingTag (e : NEvent) (s : Str)
    (h : ∀ t ∈ e.tags, t ≠ [] ∧ t.headD [] ≠ ("padding").data) :
    stripPaddingTags (addPaddingTag e s) = e := by
  unfold stripPaddingTags addPaddingTag
  have h2 : (e.tags ++ [[("padding").data, s]]).filter
      (fun t => decide (t ≠ [] ∧ t.headD [] ≠ ("padding").data)) = e.tags := by
    rw [List.filter_append]
    have hlast : ([[("padding").data, s]] : List (List Str)).filter
        (fun t => decide (t ≠ [] ∧ t.headD [] ≠ ("padding").data)) = [] := by
      simp [List.filter, List.headD]
    have hself : e.tags.filter
        (fun t => decide (t ≠ [] ∧ t.headD [] ≠ ("padding").data)) = e.tags :=
      List.filter_eq_self.mpr (fun t ht => by simpa using h t ht)
    rw [hlast, hself, List.append_nil]
  simp only [h2]

/-! ## The Wrap Engine (`pkg/client/wrapper.go`, `WrapEvent`)

The cryptographic collaborators (ephemeral key generation, NIP-44
conversation keys and encryption, SHA-256, Schnorr signing) are abstract
parameters collected in `WrapOps`. -/

structure WrapOps where
  /-- Fresh ephemeral key pair `(sk, pk)` generated for layer `i`. -/
  layerKey : Nat → Str × Str
  /-- Fresh ephemeral key pair for the 29001 container. -/
  outerKey : Str × Str
  /-- `nip44.GenerateConversationKey(recipientPubkeyHex, sk)`. -/
  convKey : Str → Str → Str
  /-- `nip44.Encrypt(plaintext, conversationKey)`. -/
  encrypt : Str → Str → Str
  /-- SHA-256 of the canonical serialization (`Event.GetID`). -/
  hashId : Str → Str
  /-- Schnorr signature (`Event.Sign`). -/
  sign : Str → Str → Str
  /-- `nostr.Now()`. -/
  nowT : Int

/-- `event.ID = event.GetID(); event.Sign(sk)`: fill id and signature. -/
def finalizeEvent (hashF : Str → Str) (signF : Str → Str → Str)
    (sk : Str) (e : NEvent) : NEvent :=
  let withId := { e with id := hashF (canonicalSer e) }
  { withId with sig := signF sk (canonicalSer withId) }

/-- One iteration of the wrapping loop: serialize the current event, encrypt
it to hop `hk`, and build the signed kind-29000 wrapper whose tags are
exactly the routing tag `["p", hex(hk)]`. -/
def mkWrapLayer (ops : WrapOps) (i : Nat) (hk : List Nat) (inner : NEvent) : NEvent :=
  let eventJSON := serEvent inner
  let sk := (ops.layerKey i).1
  let pk := (ops.layerKey i).2
  let ck := ops.convKey (hexEncode hk) sk
  let ct := ops.encrypt eventJSON ck
  finalizeEvent ops.hashId ops.sign sk
    { id := [], pubkey := pk, created_at := ops.nowT, kind := WrapperEventKind,
      tags := [[("p").data, hexEncode hk]], content := ct, sig := [] }

/-- The loop `for i := len(renterPath) - 1; i >= 0; i--`: the last hop is
wrapped first (innermost), the first hop last (outermost). -/
def wrapLayers (ops : WrapOps) (path : List (List Nat)) (orig : NEvent) : NEvent :=
  path.enum.foldr (fun p cur => mkWrapLayer ops p.1 p.2 cur) orig

/-- `WrapEvent(originalEvent, renterPath)`: reject the empty path, build the
nested 29000 layers, pad the outermost layer to exactly `StandardizedSize`,
then encrypt it into a signed 29001 container addressed to the first hop. -/
def wrapEvent (ops : WrapOps) (rnd : Nat → Nat) (orig : NEvent)
    (path : List (List Nat)) : Option NEvent :=
  if path.isEmpty then none
  else
    match padEventToExactSize rnd (wrapLayers ops path orig) StandardizedSize with
    | none => none
    | some padded =>
      some (finalizeEvent ops.hashId ops.sign ops.outerKey.1
        { id := [], pubkey := ops.outerKey.2, created_at := ops.nowT,
          kind := StandardizedWrapperKind,
          tags := [[("p").data, hexEncode (path.headD [])]],
          content := ops.encrypt (serEvent padded)
            (ops.convKey (hexEncode (path.headD [])) ops.outerKey.1),
          sig := [] })

/-- **C1.** Whenever `WrapEvent` succeeds, the outermost kind-29000 wrapper
is padded so that its JSON serialization — the plaintext encrypted into the
kind-29001 container's content — has length exactly
`StandardizedSize = 32768` bytes. -/
theorem c1_s_payload_is_exactly_standardized_size
    (ops : WrapOps) (rnd : Nat → Nat) (orig : NEvent) (path : List (List Nat))
    (s : NEvent) (hs : wrapEvent ops rnd orig path = some s) :
    ∃ padded, padEventToExactSize rnd (wrapLayers ops path orig) StandardizedSize
        = some padded
      ∧ (serEvent padded).length = 32768
      ∧ s.content = ops.encrypt (serEvent padded)
          (ops.convKey (hexEncode (path.headD [])) ops.outerKey.1) := by
  by_cases hp : path.isEmpty
  · rw [wrapEvent, if_pos hp] at hs
    exact absurd hs (by simp)
  · rw [wrapEvent, if_neg hp] at hs
    cases hpad : padEventToExactSize rnd (wrapLayers ops path orig) StandardizedSize with
    | none =>
      rw [hpad] at hs
      exact absurd hs (by simp)
    | some padded =>
      rw [hpad] at hs
      rw [Option.some.injEq] at hs
      refine ⟨padded, rfl, ?_, ?_⟩
      · have := ((padEventToExactSize_spec rnd (wrapLayers ops path orig)
          StandardizedSize).2 padded hpad)
        obtain ⟨ps, _, _, hlen⟩ := this
        simpa [StandardizedSize] using hlen
      · subst hs
        rfl

/-- **C2.** The wrapper layers built by `WrapEvent` carry exactly the
routing tag `["p", hex(H_i)]` and nothing else: no `nonce` tag is ever
added and no proof-of-work is mined (the committed-difficulty tag required
by the spec and by the server's own `nip13.Check` is absent). -/
theorem c2_wrap_layer_tags_have_no_nonce
    (ops : WrapOps) (i : Nat) (hk : List Nat) (inner : NEvent) :
    (mkWrapLayer ops i hk inner).tags = [[("p").data, hexEncode hk]] := by
  rfl

/-- **C5.** The padder fails exactly when the event's serialized size
exceeds `L - T`, where `T` is the measured JSON overhead of adding an empty
`["padding", ""]` tag; whenever it succeeds it returns the event plus a
single appended `["padding", <hex-string>]` tag whose JSON serialization has
length exactly `L`. -/
theorem c5_padder_characterization (rnd : Nat → Nat) (e : NEvent) (L : Nat) :
    (padEventToExactSize rnd e L = none ↔
      ((serEvent e).length : Int) >
        (L : Int) - (((serEvent (addPaddingTag e [])).length : Int) -
          ((serEvent e).length : Int))) ∧
    (∀ ev, padEventToExactSize rnd e L = some ev →
      ∃ s, IsHexStr s ∧ ev = addPaddingTag e s ∧ (serEvent ev).length = L) := by
  obtain ⟨h1, h2⟩ := padEventToExactSize_spec rnd e L
  refine ⟨?_, h2⟩
  rw [h1]
  have hle := le_length_serEvent_addEmptyPad e
  omega

/-- A small sample event used by the concrete witnesses. -/
def sampleEvent : NEvent :=
  { id := ("ab").data, pubkey := ("cd").data, created_at := 5, kind := 1,
    tags := [[("p").data, ("ff").data]], content := ("hello").data,
    sig := ("ee").data }

/-- Witness for C5: at target 150 the padder succeeds on `sampleEvent` and
the characterization applies. -/
theorem c5_padder_characterization_witness :
    ∃ ev, padEventToExactSize (fun i => i) sampleEvent 150 = some ev ∧
      ∃ s, IsHexStr s ∧ ev = addPaddingTag sampleEvent s ∧
        (serEvent ev).length = 150 := by
  have h : (padEventToExactSize (fun i => i) sampleEvent 150).isSome = true := by decide
  obtain ⟨ev, hev⟩ := Option.isSome_iff_exists.mp h
  exact ⟨ev, hev,
    (c5_padder_characterization (fun i => i) sampleEvent 150).2 ev hev⟩

/-- **C6.** Padding and unpadding round-trip: for an event with no empty
tags and no tag headed `"padding"`, stripping the padding tags from a
successful `padEventToExactSize` result recovers the event exactly, so the
recomputed canonical id equals the original id. -/
theorem c6_pad_strip_roundtrip (rnd : Nat → Nat) (hashF : Str → Str)
    (e : NEvent) (L : Nat)
    (htags : ∀ t ∈ e.tags, t ≠ [] ∧ t.headD [] ≠ ("padding").data)
    (ev : NEvent) (hev : padEventToExactSize rnd e L = some ev) :
    stripPaddingTags ev = e ∧
    (e.id = hashF (canonicalSer e) →
      hashF (canonicalSer (stripPaddingTags ev)) = e.id) := by
  obtain ⟨s, _, rfl, _⟩ := (padEventToExactSize_spec rnd e L).2 ev hev
  have hstrip := stripPaddingTags_addPaddingTag e s htags
  refine ⟨hstrip, fun hid => ?_⟩
  rw [hstrip, ← hid]

/-- Witness for C6 at a concrete event, target and hash function. -/
theorem c6_pad_strip_roundtrip_witness :
    ∃ ev, padEventToExactSize (fun i => i) sampleEvent 150 = some ev ∧
      (stripPaddingTags ev = sampleEvent ∧
        (sampleEvent.id = (fun x : Str => x.take 2) (canonicalSer sampleEvent) →
          (fun x : Str => x.take 2) (canonicalSer (stripPaddingTags ev))
            = sampleEvent.id)) := by
  have h : (padEventToExactSize (fun i => i) sampleEvent 150).isSome = true := by decide
  obtain ⟨ev, hev⟩ := Option.isSome_iff_exists.mp h
  exact ⟨ev, hev, c6_pad_strip_roundtrip (fun i => i) (fun x : Str => x.take 2)
    sampleEvent 150 (by decide) ev hev⟩

/-- Concrete crypto collaborators used by the wrap-engine witness. -/
def sampleWrapOps : WrapOps :=
  { layerKey := fun _ => (("01").data, ("02").data),
    outerKey := (("03").data, ("04").data),
    convKey := fun _ _ => ("ck").data,
    encrypt := fun _ _ => ("ct").data,
    hashId := fun _ => ("00").data,
    sign := fun _ _ => ("ss").data,
    nowT := 0 }

/-- Witness for C1: a concrete one-hop wrap succeeds and its padded
payload has length exactly 32768. -/
theorem c1_s_payload_witness :
    ∃ s, wrapEvent sampleWrapOps (fun i => i) sampleEvent [[1]] = some s ∧
      ∃ padded, padEventToExactSize (fun i => i)
          (wrapLayers sampleWrapOps [[1]] sampleEvent) StandardizedSize = some padded
        ∧ (serEvent padded).length = 32768
        ∧ s.content = sampleWrapOps.encrypt (serEvent padded)
            (sampleWrapOps.convKey (hexEncode (([[1]] : List (List Nat)).headD []))
              sampleWrapOps.outerKey.1) := by
  have hns : padEventToExactSize (fun i => i)
      (wrapLayers sampleWrapOps [[1]] sampleEvent) StandardizedSize ≠ none := by
    rw [Ne, (padEventToExactSize_spec (fun i => i)
      (wrapLayers sampleWrapOps [[1]] sampleEvent) StandardizedSize).1]
    decide
  obtain ⟨padded, hpad⟩ := Option.ne_none_iff_exists'.mp hns
  have hw : wrapEvent sampleWrapOps (fun i => i) sampleEvent [[1]]
      = some (finalizeEvent sampleWrapOps.hashId sampleWrapOps.sign sampleWrapOps.outerKey.1
        { id := [], pubkey := sampleWrapOps.outerKey.2,
          created_at := sampleWrapOps.nowT, kind := StandardizedWrapperKind,
          tags := [[("p").data, hexEncode (([[1]] : List (List Nat)).headD [])]],
          content := sampleWrapOps.encrypt (serEvent padded)
            (sampleWrapOps.convKey (hexEncode (([[1]] : List (List Nat)).headD []))
              sampleWrapOps.outerKey.1),
          sig := [] }) := by
    rw [wrapEvent, if_neg (by decide), hpad]
  exact ⟨_, hw, c1_s_payload_is_exactly_standardized_size sampleWrapOps
    (fun i => i) sampleEvent [[1]] _ hw⟩

/-! ## NIP-13 proof-of-work checking (go-nostr `nip13`, used by
`pkg/server/handler.go`)

`nip13.Difficulty(id)` counts the leading zero bits of the 256-bit value
written by the 64-char hex id; `nip13.Check(id, min)` errors iff the count
is below `min`.  It inspects only the id — it does not read any nonce tag. -/

/-- Leading zero bits of a byte value. -/
def leadingZeros8 (b : Nat) : Nat :=
  if 128 ≤ b then 0 else if 64 ≤ b then 1 else if 32 ≤ b then 2
  else if 16 ≤ b then 3 else if 8 ≤ b then 4 else if 4 ≤ b then 5
  else if 2 ≤ b then 6 else if 1 ≤ b then 7 else 8

/-- Nibble value of a hex character (0 for non-hex, as the Go code ignores
`hex.Decode` errors; ids are valid hex). -/
def hexNibble (c : Char) : Nat := (hexVal? c).getD 0

/-- Walk the id two hex chars (one byte) at a time. -/
def nip13DifficultyAux : Str → Nat
  | c1 :: c2 :: rest =>
    if c1 = '0' ∧ c2 = '0' then 8 + nip13DifficultyAux rest
    else leadingZeros8 (16 * hexNibble c1 + hexNibble c2)
  | _ => 0

/-- `nip13.Difficulty`. -/
def nip13Difficulty (id : Str) : Nat := nip13DifficultyAux id

/-- `nip13.Check(id, minDifficulty) == nil`. -/
def nip13Ok (id : Str) (minDifficulty : Nat) : Bool :=
  decide (minDifficulty ≤ nip13Difficulty id)

/-! ## The Peel Engine (`pkg/server/handler.go`, `HandleEvent`) -/

/-- Abstract collaborators of the peel step.  `decrypt pk ct` merges
`nip44.GenerateConversationKey(pk, r.PrivateKey)` and `nip44.Decrypt`;
`parseEvt` is `json.Unmarshal` into an event; `verify` is
`Event.CheckSignature` (errors and invalid signatures both yield `false`,
as both produce an error return in Go); `pubResults` are the per-relay
outcomes of `PublishMany`. -/
structure PeelOps where
  pub : Str
  verify : NEvent → Bool
  decrypt : Str → Str → Option Str
  parseEvt : Str → Option NEvent
  hashId : Str → Str
  convKey : Str → Str → Str
  encrypt : Str → Str → Str
  sign : Str → Str → Str
  rewrapKey : Str × Str
  nowT : Int
  pubResults : List Bool

inductive HandleErr where
  | badSig | decryptOuter | parseOuter | powOuter | decryptInner | parseInner
  | idMismatch | innerSig | powInner | noNextHop | padFail | publishFail
deriving DecidableEq, Repr

/-- Outcome of `HandleEvent`: an error return, a silent drop (routing
mismatch returns `nil` without publishing), or a publish of an event that
at least one relay accepted. -/
inductive HandleResult where
  | errored : HandleErr → HandleResult
  | silentDrop : HandleResult
  | published : NEvent → Nat → HandleResult
deriving DecidableEq, Repr

/-- `len(tag) >= 2 && tag[0] == "p" && tag[1] == pub` over the tag list. -/
def hasRouteTag (tags : List (List Str)) (pub : Str) : Bool :=
  tags.any (fun t => decide (2 ≤ t.length) && decide (t.getD 0 [] = ("p").data)
    && decide (t.getD 1 [] = pub))

/-- First `p`-tag value (the Go loop breaks at the first match; a missing
or empty value is reported as the empty string). -/
def firstPTagValue (tags : List (List Str)) : Str :=
  match tags.find? (fun t => decide (2 ≤ t.length) && decide (t.getD 0 [] = ("p").data)) with
  | none => []
  | some t => t.getD 1 []

/-- The fresh 29001 container built by the re-wrap step. -/
def rewrap29001 (ops : PeelOps) (nextHop : Str) (padded : NEvent) : NEvent :=
  finalizeEvent ops.hashId ops.sign ops.rewrapKey.1
    { id := [], pubkey := ops.rewrapKey.2, created_at := ops.nowT,
      kind := StandardizedWrapperKind,
      tags := [[("p").data, nextHop]],
      content := ops.encrypt (serEvent padded) (ops.convKey nextHop ops.rewrapKey.1),
      sig := [] }

/-- `Renoter.HandleEvent`: signature check, decrypt the 29001, parse the
inner 29000, routing check, `nip13.Check(id, PoWDifficulty)`, decrypt the
29000, parse the carried event, strip padding tags, recompute the id,
verify an inner signature when present, then either re-wrap (another
`nip13.Check`, next hop from the first `p` tag, pad to `StandardizedSize`,
new 29001) or publish the final event; publishing fails when no relay
accepted. -/
def handleEvent (ops : PeelOps) (rnd : Nat → Nat) (event : NEvent) : HandleResult :=
  if ¬ ops.verify event then .errored .badSig
  else match ops.decrypt event.pubkey event.content with
  | none => .errored .decryptOuter
  | some pt1 =>
    match ops.parseEvt pt1 with
    | none => .errored .parseOuter
    | some inner29000 =>
      if ¬ hasRouteTag inner29000.tags ops.pub then .silentDrop
      else if ¬ nip13Ok inner29000.id PoWDifficulty then .errored .powOuter
      else match ops.decrypt inner29000.pubkey inner29000.content with
      | none => .errored .decryptInner
      | some pt2 =>
        match ops.parseEvt pt2 with
        | none => .errored .parseInner
        | some innerRaw =>
          if (stripPaddingTags innerRaw).id
              ≠ ops.hashId (canonicalSer (stripPaddingTags innerRaw)) then
            .errored .idMismatch
          else if (stripPaddingTags innerRaw).sig ≠ []
              ∧ ¬ ops.verify (stripPaddingTags innerRaw) then
            .errored .innerSig
          else if (stripPaddingTags innerRaw).kind = WrapperEventKind then
            if ¬ nip13Ok (stripPaddingTags innerRaw).id PoWDifficulty then
              .errored .powInner
            else if firstPTagValue (stripPaddingTags innerRaw).tags = [] then
              .errored .noNextHop
            else match padEventToExactSize rnd (stripPaddingTags innerRaw)
                StandardizedSize with
              | none => .errored .padFail
              | some padded =>
                if ops.pubResults.count true = 0 then .errored .publishFail
                else .published
                  (rewrap29001 ops (firstPTagValue (stripPaddingTags innerRaw).tags) padded)
                  (ops.pubResults.count true)
          else
            if ops.pubResults.count true = 0 then .errored .publishFail
            else .published (stripPaddingTags innerRaw) (ops.pubResults.count true)

/-! ## C7: the POW_OK_W gate -/

/-- Decimal parse of a committed-difficulty string. -/
def parseDecNatAux : Str → Nat → Option Nat
  | [], acc => some acc
  | c :: cs, acc =>
    if '0' ≤ c ∧ c ≤ '9' then parseDecNatAux cs (acc * 10 + (c.toNat - 48))
    else none

def parseDecNat (s : Str) : Option Nat :=
  if s = [] then none else parseDecNatAux s 0

/-- Modelled from the spec: the `POW_OK_W` transition contract — "parse the
inner `W`'s nonce tag; the committed difficulty must be `≥ D` (with
`D = 16`); the id's leading-zero-bit count must meet the committed value."
Stated only to compare the code's gate against the spec's words. -/
def specPowOkW (e : NEvent) : Bool :=
  match e.tags.find? (fun t => decide (t.getD 0 [] = ("nonce").data)) with
  | none => false
  | some t =>
    match parseDecNat (t.getD 2 []) with
    | none => false
    | some committed =>
      decide (16 ≤ committed) && decide (committed ≤ nip13Difficulty e.id)

/-- An inner 29000 event whose id has exactly 18 leading zero bits and
whose nonce tag commits difficulty 18. -/
def powCexInner : NEvent :=
  { id := ("00003").data ++ List.replicate 59 'f',
    pubkey := ("aa").data, created_at := 0, kind := 29000,
    tags := [[("p").data, ("bb").data],
             [("nonce").data, ("1").data, ("18").data]],
    content := ("ct2").data, sig := ("s2").data }

/-- Peel collaborators that route `powCexInner` to the node. -/
def powCexOps : PeelOps :=
  { pub := ("bb").data,
    verify := fun _ => true,
    decrypt := fun _ _ => some [],
    parseEvt := fun _ => some powCexInner,
    hashId := fun _ => ("00").data,
    convKey := fun _ _ => ("ck").data,
    encrypt := fun _ _ => ("ct").data,
    sign := fun _ _ => ("ss").data,
    rewrapKey := (("05").data, ("06").data),
    nowT := 0,
    pubResults := [true] }

/-- A carrier 29001 event handed to `HandleEvent` in the counterexample. -/
def powCexOuter : NEvent :=
  { id := ("0a").data, pubkey := ("07").data, created_at := 0, kind := 29001,
    tags := [[("p").data, ("bb").data]], content := ("c0").data,
    sig := ("s0").data }

/-- **C7 counterexample.** The claim says the node parses the inner `W`'s
nonce tag and accepts when the committed difficulty is `≥ 16` and the id
meets it.  `powCexInner` commits 18 and its id has 18 leading zero bits, so
the claimed gate accepts it — but `HandleEvent` drops it with a PoW error,
because the code checks `nip13.Check(id, PoWDifficulty)` with
`PoWDifficulty = 20` and never reads the nonce tag. -/
theorem c7_pow_gate_counterexample :
    specPowOkW powCexInner = true ∧
    nip13Ok powCexInner.id PoWDifficulty = false ∧
    handleEvent powCexOps (fun i => i) powCexOuter = .errored .powOuter := by
  refine ⟨by decide, by decide, ?_⟩
  decide

/-- **C7 amended.** In the POW_OK_W step the node checks only that the
inner `W`'s id has at least `PoWDifficulty = 20` leading zero bits
(`nip13.Check`); the nonce tag is not parsed and the committed difficulty
is not consulted.  An inner `W` whose id has fewer than 20 leading zero
bits is dropped with a PoW error (and nothing is forwarded); one with at
least 20 passes this gate. -/
theorem c7_pow_gate_amended (ops : PeelOps) (rnd : Nat → Nat) (ev : NEvent)
    (pt : Str) (w : NEvent)
    (h1 : ops.verify ev = true)
    (h2 : ops.decrypt ev.pubkey ev.content = some pt)
    (h3 : ops.parseEvt pt = some w)
    (h4 : hasRouteTag w.tags ops.pub = true) :
    handleEvent ops rnd ev = .errored .powOuter ↔
      nip13Difficulty w.id < PoWDifficulty := by
  rw [handleEvent]
  rw [h1]
  simp only [not_true, if_false, ite_false, Bool.not_true, reduceIte]
  rw [h2]
  simp only []
  rw [h3]
  simp only [h4]
  by_cases hpow : nip13Ok w.id PoWDifficulty
  · have hge : ¬ nip13Difficulty w.id < PoWDifficulty := by
      rw [nip13Ok, decide_eq_true_eq] at hpow
      omega
    simp only [hpow, not_true, if_false]
    constructor
    · intro hres
      exfalso
      revert hres
      cases ops.decrypt w.pubkey w.content with
      | none => simp
      | some pt2 =>
        simp only []
        cases ops.parseEvt pt2 with
        | none => simp
        | some innerRaw =>
          simp only []
          split
          · simp
          · split
            · simp
            · split
              · split
                · simp
                · split
                  · simp
                  · split
                    · simp
                    · split <;> simp
              · split <;> simp
    · intro hlt
      exact absurd hlt hge
  · have hlt : nip13Difficulty w.id < PoWDifficulty := by
      rw [nip13Ok, decide_eq_true_eq] at hpow
      omega
    simp only [hpow, not_false_iff, if_true, Bool.not_false, reduceIte]
    simp [hlt]

/-- Witness for the amended C7 gate at the concrete counterexample input
(both sides of the equivalence hold there). -/
theorem c7_pow_gate_amended_witness :
    handleEvent powCexOps (fun i => i) powCexOuter = .errored .powOuter ↔
      nip13Difficulty powCexInner.id < PoWDifficulty :=
  c7_pow_gate_amended powCexOps (fun i => i) powCexOuter [] powCexInner
    (by decide) (by decide) (by decide) (by decide)

/-! ## Path validation (`pkg/client/path.go`, `ValidatePath`)

NIP-19 bech32 decoding is the abstract parameter `dec`, returning the
human-readable part and the hex-encoded key (`nip19.Decode` returns npub
data as a hex string). -/

inductive PathErr where
  | emptyPath
  | emptyNpub (i : Nat)
  | decodeFail (i : Nat)
  | badHrp (i : Nat)
  | badHex (i : Nat)
  | badLen (i : Nat)
  | duplicate (i j : Nat)
deriving DecidableEq, Repr

/-- Per-element validation: non-empty, decodes, `npub` prefix, valid hex,
32 bytes. -/
def decodeOne (dec : Str → Option (Str × Str)) (i : Nat) (npub : Str) :
    Except PathErr (List Nat) :=
  if npub = [] then .error (.emptyNpub i)
  else match dec npub with
  | none => .error (.decodeFail i)
  | some (hrp, dataHex) =>
    if hrp ≠ ("npub").data then .error (.badHrp i)
    else match hexDecode dataHex with
    | none => .error (.badHex i)
    | some bs => if bs.length ≠ 32 then .error (.badLen i) else .ok bs

/-- The first loop of `ValidatePath`, producing the decoded keys. -/
def decodeAll (dec : Str → Option (Str × Str)) (npubs : List Str) :
    Except PathErr (List (List Nat)) :=
  npubs.enum.mapM (fun p => decodeOne dec p.1 p.2)

/-- The duplicate scan (`seen` map keyed by the hex encoding; hex encoding
is injective on byte lists, so keys are compared directly). -/
def findDupAux : List (List Nat) → Nat → List (List Nat × Nat) →
    Option (Nat × Nat)
  | [], _, _ => none
  | p :: rest, i, seen =>
    match seen.lookup p with
    | some firstIdx => some (i, firstIdx)
    | none => findDupAux rest (i + 1) ((p, i) :: seen)

def findDup (pks : List (List Nat)) : Option (Nat × Nat) := findDupAux pks 0 []

/-- `ValidatePath(npubs)`: reject the empty path, decode every entry, and
reject a duplicated key with the distinct `duplicate` error. -/
def validatePath (dec : Str → Option (Str × Str)) (npubs : List Str) :
    Except PathErr (List (List Nat)) :=
  if npubs = [] then .error .emptyPath
  else match decodeAll dec npubs with
  | .error e => .error e
  | .ok pks =>
    match findDup pks with
    | some (i, j) => .error (.duplicate i j)
    | none => .ok pks

theorem findDupAux_none_nodup :
    ∀ (l : List (List Nat)) (i : Nat) (seen : List (List Nat × Nat)),
      findDupAux l i seen = none →
        l.Nodup ∧ ∀ p ∈ l, seen.lookup p = none := by
  intro l
  induction l with
  | nil => intro i seen _; exact ⟨List.nodup_nil, by simp⟩
  | cons p rest ih =>
    intro i seen h
    rw [findDupAux] at h
    cases hl : seen.lookup p with
    | some fi => rw [hl] at h; exact absurd h (by simp)
    | none =>
      rw [hl] at h
      obtain ⟨hnd, hall⟩ := ih (i + 1) ((p, i) :: seen) h
      have hne : ∀ q ∈ rest, q ≠ p := by
        intro q hq hqp
        subst hqp
        have h2 := hall q hq
        simp [List.lookup] at h2
      refine ⟨List.nodup_cons.mpr ⟨fun hmem => hne p hmem rfl, hnd⟩, ?_⟩
      intro q hq
      rcases List.mem_cons.mp hq with rfl | hq
      · exact hl
      · have h2 := hall q hq
        have hqp : q ≠ p := hne q hq
        simp only [List.lookup, beq_false_of_ne hqp] at h2
        exact h2

theorem findDup_none_nodup (pks : List (List Nat)) (h : findDup pks = none) :
    pks.Nodup :=
  (findDupAux_none_nodup pks 0 [] h).1

/-- **C4.** The Wrap Engine's path validation rejects the empty path, never
returns a path with duplicate keys, and when the decoded keys contain a
duplicate it fails with the distinguishable `duplicate` error naming the
two indices. -/
theorem c4_path_duplicates_rejected :
    (∀ dec, validatePath dec [] = .error .emptyPath) ∧
    (∀ dec npubs pks, validatePath dec npubs = .ok pks → pks.Nodup) ∧
    (∀ dec npubs pks, decodeAll dec npubs = .ok pks → ¬ pks.Nodup →
      ∃ i j, validatePath dec npubs = .error (.duplicate i j)) := by
  refine ⟨fun dec => rfl, ?_, ?_⟩
  · intro dec npubs pks h
    rw [validatePath] at h
    by_cases hne : npubs = []
    · rw [if_pos hne] at h; exact absurd h (by simp)
    · rw [if_neg hne] at h
      cases hdec : decodeAll dec npubs with
      | error e =>
        simp only [hdec] at h
        exact absurd h (by simp)
      | ok pks' =>
        simp only [hdec] at h
        cases hdup : findDup pks' with
        | some ij =>
          simp only [hdup] at h
          exact absurd h (by simp)
        | none =>
          simp only [hdup, Except.ok.injEq] at h
          subst h
          exact findDup_none_nodup _ hdup
  · intro dec npubs pks hdec hdup
    have hne : npubs ≠ [] := by
      intro hnil
      subst hnil
      have h0 : decodeAll dec ([] : List Str) = .ok [] := rfl
      rw [h0] at hdec
      cases hdec
      exact hdup List.nodup_nil
    cases hfd : findDup pks with
    | none => exact absurd (findDup_none_nodup pks hfd) hdup
    | some ij =>
      obtain ⟨i, j⟩ := ij
      refine ⟨i, j, ?_⟩
      rw [validatePath, if_neg hne]
      simp only [hdec, hfd]

/-- Witness for C4: a concrete two-entry path whose entries decode to the
same 32-byte key is rejected with the `duplicate` error. -/
theorem c4_path_duplicates_rejected_witness :
    ∃ i j, validatePath (fun s => some (("npub").data, s))
        [List.replicate 64 '0', List.replicate 64 '0']
        = .error (.duplicate i j) :=
  c4_path_duplicates_rejected.2.2 (fun s => some (("npub").data, s))
    [List.replicate 64 '0', List.replicate 64 '0']
    [List.replicate 32 0, List.replicate 32 0]
    (by rfl) (by decide)

/-! ## Association-list and take/drop helpers for the replay caches -/

theorem drop_append_le {α : Type} {l1 l2 : List α} :
    ∀ {n : Nat}, n ≤ l1.length → (l1 ++ l2).drop n = l1.drop n ++ l2 := by
  induction l1 with
  | nil =>
    intro n h
    have hn : n = 0 := by simpa using h
    subst hn
    simp
  | cons x xs ih =>
    intro n h
    cases n with
    | zero => simp
    | succ m =>
      simp only [List.cons_append, List.drop_succ_cons]
      exact ih (by simpa using h)

theorem take_append_le {α : Type} {l1 l2 : List α} :
    ∀ {n : Nat}, n ≤ l1.length → (l1 ++ l2).take n = l1.take n := by
  induction l1 with
  | nil =>
    intro n h
    have hn : n = 0 := by simpa using h
    subst hn
    simp
  | cons x xs ih =>
    intro n h
    cases n with
    | zero => simp
    | succ m =>
      simp only [List.cons_append, List.take_succ_cons]
      rw [ih (by simpa using h)]

/-- Under distinct keys, the store entry of a present key is what lookup
returns. -/
theorem lookup_of_mem_nodup {store : List (Str × Int)} {k : Str} {t : Int}
    (hnd : (store.map Prod.fst).Nodup) (hmem : (k, t) ∈ store) :
    store.lookup k = some t := by
  induction store with
  | nil => simp at hmem
  | cons p rest ih =>
    rcases List.mem_cons.mp hmem with rfl | hmem'
    · simp [List.lookup_cons]
    · have hk : k ≠ p.1 := by
        intro hkp
        have : p.1 ∈ rest.map Prod.fst :=
          List.mem_map.mpr ⟨(k, t), hmem', by rw [hkp]⟩
        exact (List.nodup_cons.mp hnd).1 this
      have hnd' : (rest.map Prod.fst).Nodup := (List.nodup_cons.mp (by simpa using hnd)).2
      rw [List.lookup_cons]
      simp only [beq_false_of_ne hk]
      exact ih hnd' hmem'

theorem lookup_eq_none_of_not_mem {store : List (Str × Int)} {k : Str}
    (h : k ∉ store.map Prod.fst) : store.lookup k = none := by
  rw [List.lookup_eq_none_iff]
  intro p hp
  simp only [bne_iff_ne, ne_eq]
  intro hk
  exact h (List.mem_map.mpr ⟨p, hp, hk.symm⟩)

theorem mem_map_fst_of_lookup_some {store : List (Str × Int)} {k : Str} {t : Int}
    (h : store.lookup k = some t) : k ∈ store.map Prod.fst := by
  by_contra hmem
  rw [lookup_eq_none_of_not_mem hmem] at h
  cases h

/-- Deleting the keys of the first `n` entries from an aligned nodup store
drops exactly its first `n` entries. -/
theorem filter_not_mem_take (store : List (Str × Int)) :
    ∀ (n : Nat), (store.map Prod.fst).Nodup →
      store.filter (fun p => decide (p.1 ∉ (store.map Prod.fst).take n))
        = store.drop n := by
  induction store with
  | nil => intro n _; simp
  | cons x rest ih =>
    intro n hnd
    cases n with
    | zero => simp
    | succ m =>
      have hx : x.1 ∉ rest.map Prod.fst := (List.nodup_cons.mp (by simpa using hnd)).1
      have hnd' : (rest.map Prod.fst).Nodup := (List.nodup_cons.mp (by simpa using hnd)).2
      simp only [List.map_cons, List.take_succ_cons, List.filter_cons, List.drop_succ_cons]
      have hhead : (decide (x.1 ∉ x.1 :: (rest.map Prod.fst).take m)) = false := by
        simp
      rw [hhead]
      have hcong : rest.filter
            (fun p => decide (p.1 ∉ x.1 :: (rest.map Prod.fst).take m))
          = rest.filter (fun p => decide (p.1 ∉ (rest.map Prod.fst).take m)) := by
        apply List.filter_congr
        intro p hp
        have hne : p.1 ≠ x.1 := by
          intro hpx
          exact hx (List.mem_map.mpr ⟨p, hp, hpx⟩)
        simp [hne]
      rw [hcong, ih m hnd']
      simp

/-! ## Go's `sort.Search` (binary search), used by
`EventCache.cleanupOldEventsLocked` -/

/-- The loop of `sort.Search`: invariant `f` is false before `i`, true from
`j` on; returns the smallest index satisfying `f` when `f` is monotone.
The fuel argument only bounds the iteration count (each step strictly
shrinks the interval, so `j - i` steps always suffice); it does not change
the Go loop's semantics. -/
def searchGo : Nat → (Nat → Bool) → Nat → Nat → Nat
  | 0, _, i, _ => i
  | fuel + 1, f, i, j =>
    if i < j then
      if f ((i + j) / 2) then searchGo fuel f i ((i + j) / 2)
      else searchGo fuel f ((i + j) / 2 + 1) j
    else i

/-- `sort.Search(n, f)`. -/
def sortSearch (n : Nat) (f : Nat → Bool) : Nat := searchGo n f 0 n

theorem searchGo_le (f : Nat → Bool) :
    ∀ (fuel i j : Nat), i ≤ j → searchGo fuel f i j ≤ j := by
  intro fuel
  induction fuel with
  | zero => intro i j hij; exact hij
  | succ d ih =>
    intro i j hij
    rw [searchGo]
    by_cases h : i < j
    · rw [if_pos h]
      by_cases hf : f ((i + j) / 2)
      · rw [if_pos hf]
        have := ih i ((i + j) / 2) (by omega)
        omega
      · rw [if_neg hf]
        exact ih ((i + j) / 2 + 1) j (by omega)
    · rw [if_neg h]
      omega

/-- Below the search result every index is false, provided `f` is monotone
on the probed range. -/
theorem searchGo_false_below (f : Nat → Bool) (n : Nat)
    (hmono : ∀ a b, a ≤ b → b < n → f a = true → f b = true) :
    ∀ (fuel i j : Nat), i ≤ j → j ≤ n →
      ∀ k, i ≤ k → k < searchGo fuel f i j → f k = false := by
  intro fuel
  induction fuel with
  | zero =>
    intro i j hij hjn k hik hk
    rw [searchGo] at hk
    omega
  | succ d ih =>
    intro i j hij hjn k hik hk
    rw [searchGo] at hk
    by_cases h : i < j
    · rw [if_pos h] at hk
      by_cases hf : f ((i + j) / 2)
      · rw [if_pos hf] at hk
        exact ih i ((i + j) / 2) (by omega) (by omega) k hik hk
      · rw [if_neg hf] at hk
        by_cases hkm : k ≤ (i + j) / 2
        · rcases Nat.lt_or_ge ((i + j) / 2) n with hn | hn
          · by_contra hktrue
            rw [Bool.not_eq_false] at hktrue
            rw [hmono k ((i + j) / 2) hkm hn hktrue] at hf
            exact hf rfl
          · omega
        · exact ih ((i + j) / 2 + 1) j (by omega) hjn k (by omega) hk
    · rw [if_neg h] at hk
      omega

/-! ## The Replay Cache class (`EventCache`, `pkg/server/cache.go`)

`eventStore` is the Go map `id → first-seen`, modelled as an association
list in insertion order; `eventKeys` tracks insertion order explicitly as
in the source. -/

structure EventCache where
  eventStore : List (Str × Int)
  eventKeys : List Str
  maxSize : Nat
  cutoffDuration : Int
deriving DecidableEq, Repr

/-- `NewEventCache(maxSize, cutoffDuration)`. -/
def NewEventCache (maxSize : Nat) (cutoffDuration : Int) : EventCache :=
  { eventStore := [], eventKeys := [], maxSize := maxSize,
    cutoffDuration := cutoffDuration }

/-- `pruneLocked`: drop the oldest 25% of `maxSize` (at least one) by
insertion order, deleting them from the map. -/
def EventCache.pruneLocked (c : EventCache) : EventCache :=
  let rc0 := c.maxSize / 4
  let rc := if rc0 = 0 then 1 else rc0
  { c with
    eventStore := c.eventStore.filter (fun p => decide (p.1 ∉ c.eventKeys.take rc)),
    eventKeys := c.eventKeys.drop rc }

/-- `cleanupOldEventsLocked`: binary-search (`sort.Search`) the first index
whose first-seen instant is at or after `now - cutoffDuration` (a key
missing from the map counts as old), then bulk-delete everything before
it. -/
def EventCache.cleanupOldEventsLocked (c : EventCache) (now : Int) : EventCache :=
  if c.eventKeys.isEmpty then c
  else
    let cutoffTime := now - c.cutoffDuration
    let f : Nat → Bool := fun i =>
      match c.eventStore.lookup (c.eventKeys.getD i []) with
      | some t => decide (cutoffTime ≤ t)
      | none => false
    let firstNewIndex := sortSearch c.eventKeys.length f
    { c with
      eventStore := c.eventStore.filter
        (fun p => decide (p.1 ∉ c.eventKeys.take firstNewIndex)),
      eventKeys := c.eventKeys.drop firstNewIndex }

/-- `CheckAndMark(eventID, now)`: prune at capacity, clean up old entries,
then atomically test-and-insert.  Returns `true` iff the id was already
present. -/
def EventCache.CheckAndMark (c : EventCache) (eventID : Str) (now : Int) :
    Bool × EventCache :=
  let c1 := if c.maxSize ≤ c.eventKeys.length then c.pruneLocked else c
  let c2 := c1.cleanupOldEventsLocked now
  match c2.eventStore.lookup eventID with
  | some _ => (true, c2)
  | none =>
    (false, { c2 with eventStore := c2.eventStore ++ [(eventID, now)],
                      eventKeys := c2.eventKeys ++ [eventID] })

/-- Well-formedness maintained by the cache: the map's entries are the key
sequence in order, keys are distinct, first-seen instants are
non-decreasing in insertion order, and all instants are at most `T`. -/
def ECWF (c : EventCache) (T : Int) : Prop :=
  c.eventStore.map Prod.fst = c.eventKeys ∧
  c.eventKeys.Nodup ∧
  List.Sorted (· ≤ ·) (c.eventStore.map Prod.snd) ∧
  ∀ t ∈ c.eventStore.map Prod.snd, t ≤ T

instance (c : EventCache) (T : Int) : Decidable (ECWF c T) := by
  unfold ECWF
  infer_instance

theorem ECWF.mono {c : EventCache} {T T' : Int} (h : ECWF c T) (hTT : T ≤ T') :
    ECWF c T' :=
  ⟨h.1, h.2.1, h.2.2.1, fun t ht => le_trans (h.2.2.2 t ht) hTT⟩

/-- Indexed lookup in an aligned nodup store. -/
theorem lookup_getD_aligned {store : List (Str × Int)}
    (hnd : (store.map Prod.fst).Nodup) {i : Nat} (hi : i < store.length) :
    store.lookup ((store.map Prod.fst).getD i []) =
      some ((store.map Prod.snd).getD i 0) := by
  have hlen1 : i < (store.map Prod.fst).length := by simpa using hi
  have hlen2 : i < (store.map Prod.snd).length := by simpa using hi
  rw [List.getD_eq_getElem _ _ hlen1, List.getD_eq_getElem _ _ hlen2]
  have h1 : (store.map Prod.fst)[i] = (store[i]).1 := by simp
  have h2 : (store.map Prod.snd)[i] = (store[i]).2 := by simp
  rw [h1, h2]
  exact lookup_of_mem_nodup hnd (by
    have : store[i] ∈ store := List.getElem_mem hi
    simpa using this)

/-- Under well-formedness the cleanup predicate is monotone on indices. -/
theorem cleanup_pred_monotone {c : EventCache} {T : Int} (hwf : ECWF c T)
    (cutoffTime : Int) :
    ∀ a b, a ≤ b → b < c.eventKeys.length →
      (match c.eventStore.lookup (c.eventKeys.getD a []) with
       | some t => decide (cutoffTime ≤ t)
       | none => false) = true →
      (match c.eventStore.lookup (c.eventKeys.getD b []) with
       | some t => decide (cutoffTime ≤ t)
       | none => false) = true := by
  intro a b hab hb hfa
  obtain ⟨halign, hnd, hsort, _⟩ := hwf
  have hlen : c.eventStore.length = c.eventKeys.length := by
    rw [← halign]; simp
  have hb' : b < c.eventStore.length := by omega
  have ha' : a < c.eventStore.length := by omega
  have hnd' : (c.eventStore.map Prod.fst).Nodup := by rw [halign]; exact hnd
  have hla := lookup_getD_aligned hnd' ha'
  have hlb := lookup_getD_aligned hnd' hb'
  rw [halign] at hla hlb
  rw [hla] at hfa
  rw [hlb]
  simp only [decide_eq_true_eq] at hfa ⊢
  have hmt : ((c.eventStore.map Prod.snd).getD a 0)
      ≤ ((c.eventStore.map Prod.snd).getD b 0) := by
    rcases Nat.lt_or_ge a b with hlt | hge
    · have hlen2 : b < (c.eventStore.map Prod.snd).length := by simpa using hb'
      have hlen2a : a < (c.eventStore.map Prod.snd).length := by simpa using ha'
      rw [List.getD_eq_getElem _ _ hlen2a, List.getD_eq_getElem _ _ hlen2]
      exact List.pairwise_iff_getElem.mp hsort a b hlen2a hlen2 hlt
    · have : a = b := by omega
      subst this
      exact le_refl _
  omega

/-- Cleanup keeps the store aligned, deduplicated, sorted and bounded: it
removes exactly a prefix of the entries. -/
theorem cleanup_wf {c : EventCache} {T : Int} (hwf : ECWF c T) (now : Int) :
    ECWF (c.cleanupOldEventsLocked now) T ∧
    ∃ k, (c.cleanupOldEventsLocked now).eventStore = c.eventStore.drop k ∧
      (c.cleanupOldEventsLocked now).eventKeys = c.eventKeys.drop k ∧
      (c.cleanupOldEventsLocked now).maxSize = c.maxSize ∧
      (c.cleanupOldEventsLocked now).cutoffDuration = c.cutoffDuration := by
  obtain ⟨halign, hnd, hsort, hbound⟩ := hwf
  rw [EventCache.cleanupOldEventsLocked]
  by_cases hkeys : c.eventKeys.isEmpty
  · rw [if_pos hkeys]
    exact ⟨⟨halign, hnd, hsort, hbound⟩, 0, by simp⟩
  · rw [if_neg hkeys]
    have hnd' : (c.eventStore.map Prod.fst).Nodup := by rw [halign]; exact hnd
    have hfilter := filter_not_mem_take c.eventStore
      (sortSearch c.eventKeys.length (fun i =>
        match c.eventStore.lookup (c.eventKeys.getD i []) with
        | some t => decide (now - c.cutoffDuration ≤ t)
        | none => false)) hnd'
    rw [halign] at hfilter
    refine ⟨⟨?_, ?_, ?_, ?_⟩, _, hfilter, rfl, rfl, rfl⟩
    · simp only [hfilter]
      rw [← halign, List.map_drop]
    · exact hnd.sublist (List.drop_sublist _ _)
    · simp only [hfilter]
      rw [List.map_drop]
      exact hsort.sublist (List.drop_sublist _ _)
    · simp only [hfilter]
      intro t ht
      exact hbound t (by
        rw [List.map_drop] at ht
        exact (List.drop_sublist _ _).subset ht)

/-- Cleanup keeps an entry whose instant is inside the cutoff window. -/
theorem cleanup_mem {c : EventCache} {T : Int} (hwf : ECWF c T)
    {id : Str} {t0 : Int} (hmem : (id, t0) ∈ c.eventStore) (now : Int)
    (hfresh : now - c.cutoffDuration ≤ t0) :
    (id, t0) ∈ (c.cleanupOldEventsLocked now).eventStore := by
  obtain ⟨halign, hnd, hsort, hbound⟩ := hwf
  rw [EventCache.cleanupOldEventsLocked]
  by_cases hkeys : c.eventKeys.isEmpty
  · rw [if_pos hkeys]; exact hmem
  · rw [if_neg hkeys]
    simp only []
    have hnd' : (c.eventStore.map Prod.fst).Nodup := by rw [halign]; exact hnd
    set f : Nat → Bool := fun i =>
      match c.eventStore.lookup (c.eventKeys.getD i []) with
      | some t => decide (now - c.cutoffDuration ≤ t)
      | none => false with hf
    set idx := sortSearch c.eventKeys.length f with hidx
    have hfilter := filter_not_mem_take c.eventStore idx hnd'
    rw [halign] at hfilter
    rw [hfilter]
    -- decompose the store at the entry
    obtain ⟨S1, S2, hsplit⟩ := List.append_of_mem hmem
    have hp : S1.length < c.eventStore.length := by
      rw [hsplit]; simp
    have hgetp : (c.eventStore.map Prod.fst).getD S1.length [] = id := by
      rw [hsplit]
      have hlen : S1.length < (S1.map Prod.fst ++ (id, t0).1 :: S2.map Prod.fst).length := by
        simp
      rw [List.map_append, List.map_cons]
      rw [List.getD_eq_getElem _ _ (by simpa using hlen)]
      rw [List.getElem_append_right (by simp)]
      simp
    have hfp : f S1.length = true := by
      rw [hf]
      simp only []
      rw [← halign, hgetp, lookup_of_mem_nodup hnd' hmem]
      simpa using hfresh
    have hple : idx ≤ S1.length := by
      by_contra hgt
      push_neg at hgt
      have hfalse := searchGo_false_below f c.eventKeys.length
        (cleanup_pred_monotone ⟨halign, hnd, hsort, hbound⟩ (now - c.cutoffDuration))
        c.eventKeys.length 0 c.eventKeys.length (by omega) (by omega)
        S1.length (by omega) (by simpa [hidx, sortSearch] using hgt)
      rw [hfp] at hfalse
      cases hfalse
    rw [hsplit, drop_append_le (by omega)]
    simp

/-- Pruning also removes exactly a prefix, preserving well-formedness. -/
theorem prune_wf {c : EventCache} {T : Int} (hwf : ECWF c T) :
    ECWF c.pruneLocked T ∧
    ∃ k, c.pruneLocked.eventStore = c.eventStore.drop k ∧
      c.pruneLocked.eventKeys = c.eventKeys.drop k ∧
      c.pruneLocked.maxSize = c.maxSize ∧
      c.pruneLocked.cutoffDuration = c.cutoffDuration := by
  obtain ⟨halign, hnd, hsort, hbound⟩ := hwf
  rw [EventCache.pruneLocked]
  have hnd' : (c.eventStore.map Prod.fst).Nodup := by rw [halign]; exact hnd
  have hfilter := filter_not_mem_take c.eventStore
    (if c.maxSize / 4 = 0 then 1 else c.maxSize / 4) hnd'
  rw [halign] at hfilter
  refine ⟨⟨?_, ?_, ?_, ?_⟩, _, hfilter, rfl, rfl, rfl⟩
  · simp only [hfilter]
    rw [← halign, List.map_drop]
  · exact hnd.sublist (List.drop_sublist _ _)
  · simp only [hfilter]
    rw [List.map_drop]
    exact hsort.sublist (List.drop_sublist _ _)
  · simp only [hfilter]
    intro t ht
    exact hbound t (by
      rw [List.map_drop] at ht
      exact (List.drop_sublist _ _).subset ht)

/-- Appending a fresh entry at `now` preserves well-formedness when every
stored instant is at most `now`. -/
theorem insert_wf {c : EventCache} {T now : Int} (hwf : ECWF c T)
    {id : Str} (hnotin : id ∉ c.eventKeys) (hT : T ≤ now) :
    ECWF { c with eventStore := c.eventStore ++ [(id, now)],
                  eventKeys := c.eventKeys ++ [id] } now := by
  obtain ⟨halign, hnd, hsort, hbound⟩ := hwf
  refine ⟨?_, ?_, ?_, ?_⟩
  · simp [halign]
  · simp only []
    rw [List.nodup_append]
    exact ⟨hnd, List.nodup_singleton id, by simpa using hnotin⟩
  · simp only [List.map_append, List.map_cons, List.map_nil]
    show List.Pairwise _ _
    rw [List.pairwise_append]
    refine ⟨hsort, List.pairwise_singleton _ _, ?_⟩
    intro a ha b hb
    simp only [List.mem_singleton] at hb
    subst hb
    exact le_trans (hbound a ha) hT
  · simp only [List.map_append, List.map_cons, List.map_nil]
    intro t ht
    rcases List.mem_append.mp ht with ht | ht
    · exact le_trans (hbound t ht) hT
    · simp only [List.mem_singleton] at ht
      subst ht
      exact le_refl _

/-- One `CheckAndMark` call that does not hit the capacity prune keeps any
entry inside its cutoff window, and preserves well-formedness with bound
`now`. -/
theorem checkAndMark_persist {c : EventCache} {T now t0 : Int} {id x : Str}
    (hwf : ECWF c T) (hmem : (id, t0) ∈ c.eventStore)
    (hsize : c.eventKeys.length < c.maxSize)
    (hT : T ≤ now) (hwin : now ≤ t0 + c.cutoffDuration) :
    (id, t0) ∈ (c.CheckAndMark x now).2.eventStore ∧
    ECWF (c.CheckAndMark x now).2 now ∧
    (c.CheckAndMark x now).2.maxSize = c.maxSize ∧
    (c.CheckAndMark x now).2.cutoffDuration = c.cutoffDuration := by
  rw [EventCache.CheckAndMark]
  rw [if_neg (by omega)]
  have hclean := cleanup_wf hwf now
  obtain ⟨hwf2, k, hst, hks, hms, hcd⟩ := hclean
  have hmem2 : (id, t0) ∈ (c.cleanupOldEventsLocked now).eventStore :=
    cleanup_mem hwf hmem now (by omega)
  cases hl : (c.cleanupOldEventsLocked now).eventStore.lookup x with
  | some t =>
    simp only []
    exact ⟨hmem2, hwf2.mono hT, hms, hcd⟩
  | none =>
    simp only []
    have hxnot : x ∉ (c.cleanupOldEventsLocked now).eventKeys := by
      rw [← hwf2.1]
      intro hmemx
      obtain ⟨p, hp, hpx⟩ := List.mem_map.mp hmemx
      have hbne := List.lookup_eq_none_iff.mp hl p hp
      rw [← hpx] at hbne
      simp at hbne
    exact ⟨by simp [hmem2], insert_wf hwf2 hxnot hT, hms, hcd⟩

/-- A `CheckAndMark` that avoids the prune and whose id is present inside
the window reports the replay. -/
theorem checkAndMark_hit {c : EventCache} {T now t0 : Int} {id : Str}
    (hwf : ECWF c T) (hmem : (id, t0) ∈ c.eventStore)
    (hsize : c.eventKeys.length < c.maxSize)
    (hwin : now ≤ t0 + c.cutoffDuration) :
    (c.CheckAndMark id now).1 = true := by
  rw [EventCache.CheckAndMark, if_neg (by omega)]
  have hmem2 := cleanup_mem hwf hmem now (by omega)
  have hwf2 := (cleanup_wf hwf now).1
  have hlk : (c.cleanupOldEventsLocked now).eventStore.lookup id = some t0 :=
    lookup_of_mem_nodup (by rw [hwf2.1]; exact hwf2.2.1) hmem2
  simp only [hlk]

/-- A `CheckAndMark` returning `false` inserts the id at the call instant
and preserves well-formedness (also across a capacity prune: the fresh
entry is appended after pruning). -/
theorem checkAndMark_false_inserts {c : EventCache} {T t0 : Int} {id : Str}
    (hwf : ECWF c T) (hT : T ≤ t0)
    (hres : (c.CheckAndMark id t0).1 = false) :
    (id, t0) ∈ (c.CheckAndMark id t0).2.eventStore ∧
    ECWF (c.CheckAndMark id t0).2 t0 ∧
    (c.CheckAndMark id t0).2.maxSize = c.maxSize ∧
    (c.CheckAndMark id t0).2.cutoffDuration = c.cutoffDuration := by
  rw [EventCache.CheckAndMark] at hres ⊢
  by_cases hp : c.maxSize ≤ c.eventKeys.length
  · rw [if_pos hp] at hres ⊢
    obtain ⟨hwfp, kp, _, _, hmsp, hcdp⟩ := prune_wf hwf
    obtain ⟨hwfc, kc, _, _, hmsc, hcdc⟩ := cleanup_wf hwfp t0
    cases hl : (c.pruneLocked.cleanupOldEventsLocked t0).eventStore.lookup id with
    | some t =>
      simp only [hl] at hres
      cases hres
    | none =>
      simp only [hl] at hres ⊢
      have hidnot : id ∉ (c.pruneLocked.cleanupOldEventsLocked t0).eventKeys := by
        rw [← hwfc.1]
        intro hmemx
        obtain ⟨q, hq, hqx⟩ := List.mem_map.mp hmemx
        have hbne := List.lookup_eq_none_iff.mp hl q hq
        rw [← hqx] at hbne
        simp at hbne
      exact ⟨by simp, insert_wf hwfc hidnot hT, hmsc.trans hmsp, hcdc.trans hcdp⟩
  · rw [if_neg hp] at hres ⊢
    obtain ⟨hwfc, kc, _, _, hmsc, hcdc⟩ := cleanup_wf hwf t0
    cases hl : (c.cleanupOldEventsLocked t0).eventStore.lookup id with
    | some t =>
      simp only [hl] at hres
      cases hres
    | none =>
      simp only [hl] at hres ⊢
      have hidnot : id ∉ (c.cleanupOldEventsLocked t0).eventKeys := by
        rw [← hwfc.1]
        intro hmemx
        obtain ⟨q, hq, hqx⟩ := List.mem_map.mp hmemx
        have hbne := List.lookup_eq_none_iff.mp hl q hq
        rw [← hqx] at hbne
        simp at hbne
      exact ⟨by simp, insert_wf hwfc hidnot hT, hmsc, hcdc⟩

/-- Replaying a list of `CheckAndMark` calls. -/
def camRun (c : EventCache) : List (Str × Int) → EventCache
  | [] => c
  | (x, t) :: rest => camRun ((c.CheckAndMark x t).2) rest

/-- No-capacity-prune, monotone-clock run: every call starts below
`maxSize`, call instants are non-decreasing from `tPrev` and at most
`tEnd`. -/
def RunOK (tEnd : Int) : EventCache → Int → List (Str × Int) → Prop
  | _, _, [] => True
  | c, tPrev, (x, t) :: rest =>
    c.eventKeys.length < c.maxSize ∧ tPrev ≤ t ∧ t ≤ tEnd ∧
      RunOK tEnd ((c.CheckAndMark x t).2) t rest

instance RunOK.dec (tEnd : Int) :
    ∀ (c : EventCache) (tPrev : Int) (calls : List (Str × Int)),
      Decidable (RunOK tEnd c tPrev calls)
  | _, _, [] => isTrue trivial
  | c, tPrev, (x, t) :: rest =>
    have : Decidable (RunOK tEnd ((c.CheckAndMark x t).2) t rest) :=
      RunOK.dec tEnd _ _ rest
    inferInstanceAs (Decidable (_ ∧ _ ∧ _ ∧ _))

theorem camRun_then_hit {id : Str} {t0 tEnd : Int} :
    ∀ (calls : List (Str × Int)) (c : EventCache) (tPrev tR : Int),
      ECWF c tPrev → (id, t0) ∈ c.eventStore →
      tEnd ≤ t0 + c.cutoffDuration →
      RunOK tEnd c tPrev (calls ++ [(id, tR)]) →
      ((camRun c calls).CheckAndMark id tR).1 = true := by
  intro calls
  induction calls with
  | nil =>
    intro c tPrev tR hwf hmem hcut hrun
    obtain ⟨hsz, hpt, hte, _⟩ := hrun
    show ((camRun c []).CheckAndMark id tR).1 = true
    rw [camRun]
    exact checkAndMark_hit hwf hmem hsz (by omega)
  | cons a rest ih =>
    obtain ⟨x, t⟩ := a
    intro c tPrev tR hwf hmem hcut hrun
    obtain ⟨hsz, hpt, hte, hrest⟩ := hrun
    obtain ⟨hmem', hwf', hms, hcd⟩ :=
      @checkAndMark_persist _ _ _ _ _ x hwf hmem hsz hpt (by omega)
    show ((camRun c ((x, t) :: rest)).CheckAndMark id tR).1 = true
    rw [camRun]
    exact ih ((c.CheckAndMark x t).2) t tR hwf' hmem' (by rw [hcd]; omega) hrest

/-- **C3 amended.** After `check_and_mark` inserts an id at `t0`, every
later call with that id whose instant lies within `t0 + cutoffDuration`
returns `already_seen = true`, **provided the capacity prune never runs in
between**: every intervening call (and the replay call itself) must start
with the cache strictly below `maxSize`, and call instants must be
non-decreasing.  (The capacity prune evicts the oldest 25% by insertion
order regardless of age, so without this proviso the id can be evicted
inside the window — see the counterexample.) -/
theorem c3_dedup_window_amended (c : EventCache) (T t0 tR : Int) (id : Str)
    (calls : List (Str × Int))
    (hwf : ECWF c T) (hT : T ≤ t0)
    (hfirst : (c.CheckAndMark id t0).1 = false)
    (hrun : RunOK (t0 + c.cutoffDuration) ((c.CheckAndMark id t0).2) t0
      (calls ++ [(id, tR)])) :
    ((camRun ((c.CheckAndMark id t0).2) calls).CheckAndMark id tR).1 = true := by
  obtain ⟨hmem, hwf1, hms, hcd⟩ := checkAndMark_false_inserts hwf hT hfirst
  exact camRun_then_hit calls ((c.CheckAndMark id t0).2) t0 tR hwf1 hmem
    (by rw [hcd]) hrun

/-- Witness for the amended C3: a two-call run on a small cache. -/
theorem c3_dedup_window_amended_witness :
    ((camRun ((NewEventCache 5000 7200).CheckAndMark (('a') :: []) 0).2
        [((('b') :: []), 1)]).CheckAndMark (('a') :: []) 2).1 = true :=
  c3_dedup_window_amended (NewEventCache 5000 7200) 0 0 2 (('a') :: [])
    [((('b') :: []), 1)] (by decide) (by omega) (by decide) (by decide)

/-! ### C3 counterexample: the capacity prune evicts an id inside the
cutoff window -/

theorem sortSearch_zero_of_all_true (n : Nat) (f : Nat → Bool)
    (hall : ∀ b, b < n → f b = true) : sortSearch n f = 0 := by
  by_contra hne
  have hpos : 0 < sortSearch n f := Nat.pos_of_ne_zero hne
  have hle : sortSearch n f ≤ n := searchGo_le f n 0 n (by omega)
  have hfalse := searchGo_false_below f n (fun a b _ hb _ => hall b hb) n 0 n
    (by omega) (by omega) 0 (by omega) hpos
  rw [hall 0 (by omega)] at hfalse
  cases hfalse

/-- Cleanup is a no-op when every stored instant lies inside the window. -/
theorem cleanup_noop_of_all_fresh {c : EventCache} {T : Int} (hwf : ECWF c T)
    (now : Int)
    (hall : ∀ t ∈ c.eventStore.map Prod.snd, now - c.cutoffDuration ≤ t) :
    c.cleanupOldEventsLocked now = c := by
  simp only [EventCache.cleanupOldEventsLocked]
  by_cases hkeys : c.eventKeys.isEmpty
  · rw [if_pos hkeys]
  · rw [if_neg hkeys]
    have hidx : sortSearch c.eventKeys.length (fun i =>
        match c.eventStore.lookup (c.eventKeys.getD i []) with
        | some t => decide (now - c.cutoffDuration ≤ t)
        | none => false) = 0 := by
      apply sortSearch_zero_of_all_true
      intro b hb
      obtain ⟨halign, hnd, _, _⟩ := hwf
      have hnd' : (c.eventStore.map Prod.fst).Nodup := by rw [halign]; exact hnd
      have hb' : b < c.eventStore.length := by
        rw [← halign] at hb
        simpa using hb
      have hlk := lookup_getD_aligned hnd' hb'
      rw [halign] at hlk
      simp only [hlk, decide_eq_true_eq]
      apply hall
      have hb2 : b < (c.eventStore.map Prod.snd).length := by simpa using hb'
      rw [List.getD_eq_getElem _ _ hb2]
      exact List.getElem_mem hb2
    rw [hidx]
    simp only [List.take_zero, List.drop_zero]
    have hfe : c.eventStore.filter (fun p => decide (p.1 ∉ ([] : List Str)))
        = c.eventStore := List.filter_eq_self.mpr (fun a _ => by simp)
    rw [hfe]

theorem map_fst_const_pairs (t0 : Int) :
    ∀ (M : List Str), ((M.map (fun k => (k, t0))).map Prod.fst) = M := by
  intro M
  induction M with
  | nil => rfl
  | cons a as ihh =>
    simp only [List.map_cons]
    rw [ihh]

theorem map_snd_const_pairs (t0 : Int) :
    ∀ (M : List Str), ((M.map (fun k => (k, t0))).map Prod.snd)
      = M.map (fun _ => t0) := by
  intro M
  induction M with
  | nil => rfl
  | cons a as ihh =>
    simp only [List.map_cons]
    rw [ihh]

/-- A cache whose entries were all inserted at `t0` is well-formed. -/
theorem ecwf_const (t0 : Int) (L : List Str) (hnd : L.Nodup) (m : Nat) (cd : Int) :
    ECWF ⟨L.map (fun k => (k, t0)), L, m, cd⟩ t0 := by
  refine ⟨map_fst_const_pairs t0 L, hnd, ?_, ?_⟩
  · show List.Sorted _ ((L.map (fun k => (k, t0))).map Prod.snd)
    rw [map_snd_const_pairs]
    exact List.pairwise_iff_getElem.mpr (fun i j hi hj hij => by simp)
  · intro t ht
    rw [map_snd_const_pairs] at ht
    obtain ⟨a, _, rfl⟩ := List.mem_map.mp ht
    exact le_refl _

/-- A fresh id inserted into an all-at-`t0` cache below capacity simply
appends. -/
theorem checkAndMark_const_step (t0 : Int) (L : List Str) (p : Str)
    (hnd : L.Nodup) (hp : p ∉ L) (hlen : L.length < 5000) :
    EventCache.CheckAndMark ⟨L.map (fun k => (k, t0)), L, 5000, 7200⟩ p t0
      = (false, ⟨(L ++ [p]).map (fun k => (k, t0)), L ++ [p], 5000, 7200⟩) := by
  rw [EventCache.CheckAndMark]
  rw [if_neg (by simpa using hlen)]
  rw [cleanup_noop_of_all_fresh (ecwf_const t0 L hnd 5000 7200) t0 (by
    intro t ht
    rw [map_snd_const_pairs] at ht
    obtain ⟨a, _, rfl⟩ := List.mem_map.mp ht
    show t0 - (7200 : Int) ≤ t0
    omega)]
  have hlk : ((L.map (fun k => (k, t0))).lookup p) = none :=
    lookup_eq_none_of_not_mem (by rw [map_fst_const_pairs]; exact hp)
  simp only [hlk]
  simp

/-- A fresh id inserted at capacity first triggers the 25% prune
(`5000 / 4 = 1250` oldest entries dropped), then appends. -/
theorem checkAndMark_prune_step (t0 : Int) (L : List Str) (p : Str)
    (hnd : L.Nodup) (hp : p ∉ L) (hlen : 5000 ≤ L.length) :
    EventCache.CheckAndMark ⟨L.map (fun k => (k, t0)), L, 5000, 7200⟩ p t0
      = (false, ⟨(L.drop 1250 ++ [p]).map (fun k => (k, t0)),
          L.drop 1250 ++ [p], 5000, 7200⟩) := by
  rw [EventCache.CheckAndMark]
  rw [if_pos (by simpa using hlen)]
  have hnd' : (((L.map (fun k => (k, t0))).map Prod.fst)).Nodup := by
    rw [map_fst_const_pairs]; exact hnd
  have hprune : EventCache.pruneLocked ⟨L.map (fun k => (k, t0)), L, 5000, 7200⟩
      = ⟨(L.drop 1250).map (fun k => (k, t0)), L.drop 1250, 5000, 7200⟩ := by
    rw [EventCache.pruneLocked]
    have hfilter := filter_not_mem_take (L.map (fun k => (k, t0))) 1250 hnd'
    rw [map_fst_const_pairs] at hfilter
    simp only [show (if (5000 : Nat) / 4 = 0 then 1 else 5000 / 4) = 1250 from by norm_num]
    rw [hfilter, ← List.map_drop]
  rw [hprune]
  rw [cleanup_noop_of_all_fresh
    (ecwf_const t0 (L.drop 1250) (hnd.sublist (List.drop_sublist _ _)) 5000 7200) t0 (by
      intro t ht
      rw [map_snd_const_pairs] at ht
      obtain ⟨a, _, rfl⟩ := List.mem_map.mp ht
      show t0 - (7200 : Int) ≤ t0
      omega)]
  have hpnot : p ∉ L.drop 1250 := fun hmm => hp ((List.drop_sublist _ _).subset hmm)
  have hlk : (((L.drop 1250).map (fun k => (k, t0))).lookup p) = none :=
    lookup_eq_none_of_not_mem (by rw [map_fst_const_pairs]; exact hpnot)
  simp only [hlk]
  simp

/-- A run of fresh all-at-`t0` inserts below capacity appends them all. -/
theorem camRun_fresh (t0 : Int) :
    ∀ (P : List Str) (L : List Str),
      (L ++ P).Nodup → L.length + P.length ≤ 5000 →
      camRun ⟨L.map (fun k => (k, t0)), L, 5000, 7200⟩ (P.map (fun k => (k, t0)))
        = ⟨(L ++ P).map (fun k => (k, t0)), L ++ P, 5000, 7200⟩ := by
  intro P
  induction P with
  | nil =>
    intro L h1 h2
    simp [camRun]
  | cons p rest ih =>
    intro L h1 h2
    have hndL : L.Nodup := (List.nodup_append.mp h1).1
    have hpL : p ∉ L := by
      intro hmm
      exact ((List.nodup_append.mp h1).2.2 hmm) (by simp)
    simp only [List.map_cons]
    rw [camRun]
    rw [checkAndMark_const_step t0 L p hndL hpL (by
      simp at h2
      omega)]
    have h1' : ((L ++ [p]) ++ rest).Nodup := by
      simpa [List.append_assoc] using h1
    have h2' : (L ++ [p]).length + rest.length ≤ 5000 := by
      simp at h2 ⊢
      omega
    rw [ih (L ++ [p]) h1' h2']
    simp

/-- The id inserted first (and later evicted by the capacity prune). -/
def c3id : Str := ['a']

/-- 4999 further distinct ids (distinct lengths). -/
def c3others : List Str := (List.range 4999).map (fun k => List.replicate (k + 1) 'x')

/-- The 5001st id, whose arrival triggers the capacity prune. -/
def c3fresh : Str := List.replicate 5001 'x'

/-- `NewEventCache(5000, 2*time.Hour)` as in `NewRenoter`. -/
def c3cache0 : EventCache := NewEventCache 5000 7200

theorem c3others_nodup : c3others.Nodup := by
  refine List.Nodup.map ?_ (List.nodup_range 4999)
  intro a b hab
  have hl := congrArg List.length hab
  rw [List.length_replicate, List.length_replicate] at hl
  omega

theorem c3id_not_mem_others : c3id ∉ c3others := by
  intro hmm
  obtain ⟨k, _, hk⟩ := List.mem_map.mp hmm
  have hlen := congrArg List.length hk
  rw [List.length_replicate] at hlen
  have hk0 : k = 0 := by
    have : c3id.length = 1 := rfl
    omega
  subst hk0
  exact absurd hk (by decide)

theorem c3others_length : c3others.length = 4999 := by
  rw [c3others, List.length_map, List.length_range]

theorem c3fresh_not_mem : c3fresh ∉ c3id :: c3others := by
  intro hmm
  rcases List.mem_cons.mp hmm with h | h
  · have hlen := congrArg List.length h
    rw [c3fresh, List.length_replicate] at hlen
    have : c3id.length = 1 := rfl
    omega
  · obtain ⟨k, hk, hkk⟩ := List.mem_map.mp h
    rw [c3fresh] at hkk
    have hlen := congrArg List.length hkk
    rw [List.length_replicate, List.length_replicate] at hlen
    rw [List.mem_range] at hk
    omega

theorem c3all_nodup : (c3id :: c3others).Nodup :=
  List.nodup_cons.mpr ⟨c3id_not_mem_others, c3others_nodup⟩

theorem camRun_append (l2 : List (Str × Int)) :
    ∀ (l1 : List (Str × Int)) (c : EventCache),
      camRun c (l1 ++ l2) = camRun (camRun c l1) l2 := by
  intro l1
  induction l1 with
  | nil => intro c; rfl
  | cons a rest ih =>
    obtain ⟨x, t⟩ := a
    intro c
    rw [List.cons_append, camRun, camRun]
    exact ih ((c.CheckAndMark x t).2)

/-- **C3 counterexample.** Insert `c3id` at time 0 (`CheckAndMark` returns
`false`: not seen before); insert 4999 further distinct ids, all at time 0;
the 5001st arrival finds the cache at `maxSize = 5000` and triggers the
capacity prune, which drops the oldest 25% (1250 entries) by insertion
order — including `c3id` — even though nothing is older than `T_cache`.
A replay of `c3id`, still at time 0 (well inside `t0 + T_cache = 7200`),
then returns `false` again, contradicting the claim that every later call
with the same id within `T_cache` returns `already_seen = true` "including
runs in which the capacity prune fires between the two calls". -/
theorem c3_prune_evicts_inside_window_counterexample :
    (c3cache0.CheckAndMark c3id 0).1 = false ∧
    ((camRun (c3cache0.CheckAndMark c3id 0).2
        ((c3others ++ [c3fresh]).map (fun k => (k, (0 : Int))))).CheckAndMark
      c3id 0).1 = false := by
  constructor
  · rfl
  · have hIns : (c3cache0.CheckAndMark c3id 0).2
        = ⟨([c3id]).map (fun k => (k, (0 : Int))), [c3id], 5000, 7200⟩ := by
      rfl
    rw [hIns, List.map_append, camRun_append]
    rw [camRun_fresh 0 c3others [c3id]
      (by simpa using c3all_nodup)
      (by rw [c3others_length]; simp)]
    have hfill : ([c3id] ++ c3others : List Str) = c3id :: c3others := by simp
    rw [hfill]
    show ((camRun _ ((c3fresh, (0 : Int)) :: [])).CheckAndMark c3id 0).1 = false
    rw [camRun]
    rw [checkAndMark_prune_step 0 (c3id :: c3others) c3fresh c3all_nodup
      c3fresh_not_mem (by rw [List.length_cons, c3others_length])]
    rw [show ((false, (⟨((c3id :: c3others).drop 1250 ++ [c3fresh]).map
          (fun k => (k, (0 : Int))),
        (c3id :: c3others).drop 1250 ++ [c3fresh], 5000, 7200⟩ : EventCache))).2
      = (⟨((c3id :: c3others).drop 1250 ++ [c3fresh]).map (fun k => (k, (0 : Int))),
        (c3id :: c3others).drop 1250 ++ [c3fresh], 5000, 7200⟩ : EventCache) from rfl]
    rw [camRun]
    have hnd : ((c3id :: c3others).drop 1250 ++ [c3fresh]).Nodup := by
      rw [List.nodup_append]
      refine ⟨c3all_nodup.sublist (List.drop_sublist _ _),
        List.nodup_singleton _, ?_⟩
      intro a ha hb
      simp only [List.mem_singleton] at hb
      subst hb
      exact c3fresh_not_mem ((List.drop_sublist _ _).subset ha)
    have hlen : ((c3id :: c3others).drop 1250 ++ [c3fresh]).length < 5000 := by
      rw [List.length_append, List.length_drop, List.length_cons, c3others_length]
      simp
    have hnotmem : c3id ∉ (c3id :: c3others).drop 1250 ++ [c3fresh] := by
      intro hmm
      rcases List.mem_append.mp hmm with h | h
      · rw [List.drop_succ_cons] at h
        exact c3id_not_mem_others ((List.drop_sublist _ _).subset h)
      · simp only [List.mem_singleton] at h
        have hlh := congrArg List.length h
        rw [c3fresh, List.length_replicate] at hlh
        have : c3id.length = 1 := rfl
        omega
    rw [checkAndMark_const_step 0 ((c3id :: c3others).drop 1250 ++ [c3fresh])
      c3id hnd hnotmem hlen]

/-! ## `pkg/server/renoter.go`: the server-side replay cache in
`Renoter.ProcessEvent`, and the subscription loop of
`SubscribeToWrappedEvents` (handler.go) -/

/-- Replay-relevant state of a `Renoter`: the Go map from event id to
first-seen instant is an insertion-ordered association list and
`eventKeys` tracks insertion order for pruning (renoter.go). -/
structure Renoter where
  eventStore : List (Str × Int)
  eventKeys : List Str
  maxCacheSize : Nat
deriving DecidableEq, Repr

/-- Cache initialisation in `NewRenoter`: empty store, `maxCacheSize = 5000`. -/
def NewRenoter : Renoter :=
  { eventStore := [], eventKeys := [], maxCacheSize := 5000 }

/-- `Renoter.cleanupOldEvents`: keep a tracked key iff its entry exists and
its first-seen instant is strictly after `now - 2h`
(`seenTime.After(cutoffTime)`); exactly the dropped tracked entries are
deleted from the map. -/
def Renoter.cleanupOldEvents (r : Renoter) (now : Int) : Renoter :=
  let cutoffTime : Int := now - 2 * 3600
  let keep : Str → Bool := fun k =>
    match r.eventStore.lookup k with
    | some seenTime => decide (cutoffTime < seenTime)
    | none => false
  { r with
    eventKeys := r.eventKeys.filter keep,
    eventStore := r.eventStore.filter
      (fun p => !(decide (p.1 ∈ r.eventKeys)) || keep p.1) }

/-- Outcomes of `Renoter.ProcessEvent` (the `nil` return hands the event
on to `HandleEvent`). -/
inductive ProcErr where
  | tooOld
  | replay
  | badSig
deriving DecidableEq, Repr

/-- `Renoter.ProcessEvent` (renoter.go): reject events created more than
one hour ago, clean up entries older than two hours, atomically
check-and-mark the id (replay error on a hit), prune
`max(1, maxCacheSize/4)` oldest entries when the cache exceeds
`maxCacheSize`, then verify the signature (the crypto call
`event.CheckSignature()` is abstracted to the boolean `sigOK`). -/
def Renoter.ProcessEvent (r : Renoter) (sigOK : Bool) (eventID : Str)
    (createdAt now : Int) : Option ProcErr × Renoter :=
  if createdAt < now - 3600 then (some .tooOld, r)
  else
    let r1 := r.cleanupOldEvents now
    match r1.eventStore.lookup eventID with
    | some _ => (some .replay, r1)
    | none =>
      let r2 := { r1 with
        eventStore := r1.eventStore ++ [(eventID, now)],
        eventKeys := r1.eventKeys ++ [eventID] }
      let r3 :=
        if r2.maxCacheSize < r2.eventKeys.length then
          let removeCount := if r2.maxCacheSize / 4 = 0 then 1
            else r2.maxCacheSize / 4
          { r2 with
            eventStore := r2.eventStore.filter
              (fun p => decide (p.1 ∉ r2.eventKeys.take removeCount)),
            eventKeys := r2.eventKeys.drop removeCount }
        else r2
      if sigOK then (none, r3) else (some .badSig, r3)

/-- State of the event-processing goroutine in `SubscribeToWrappedEvents`:
the `processedEvents` and `processingEvents` dedup maps, plus (as a ghost
log) the ids handed to `HandleEvent`. -/
structure SubLoopState where
  renoter : Renoter
  processedEvents : List Str
  processingEvents : List Str
  handles : List Str
deriving DecidableEq, Repr

/-- One loop iteration on an incoming event: skip ids already processed or
in flight; otherwise mark the id as processing and run `ProcessEvent`. On
a `ProcessEvent` error the Go code continues the loop — the id stays
marked as processing and `HandleEvent` is not called; on success
`HandleEvent` runs (logged in `handles`) and the id is marked processed
regardless of `HandleEvent`'s own result. -/
def subLoopStep (st : SubLoopState) (sigOK : Bool) (ev : NEvent)
    (now : Int) : SubLoopState :=
  if ev.id ∈ st.processedEvents then st
  else if ev.id ∈ st.processingEvents then st
  else
    let st1 := { st with
      processingEvents := st.processingEvents ++ [ev.id] }
    let res := st1.renoter.ProcessEvent sigOK ev.id ev.created_at now
    match res.1 with
    | some _ => { st1 with renoter := res.2 }
    | none =>
      { renoter := res.2,
        processedEvents := st1.processedEvents ++ [ev.id],
        processingEvents := st1.processingEvents.filter
          (fun k => decide (k ≠ ev.id)),
        handles := st1.handles ++ [ev.id] }

/-- Pointwise reduction of the cleanup predicate on an aligned nodup
store: the lookup of a stored entry's key finds its own instant. -/
theorem filter_cleanup_store (S : List (Str × Int)) (cut : Int)
    (hnd : (S.map Prod.fst).Nodup) :
    S.filter (fun p => !(decide (p.1 ∈ S.map Prod.fst)) ||
        (match S.lookup p.1 with
         | some seenTime => decide (cut < seenTime)
         | none => false))
      = S.filter (fun p => decide (cut < p.2)) := by
  apply List.filter_congr
  intro p hp
  have hmemf : p.1 ∈ S.map Prod.fst := List.mem_map.mpr ⟨p, hp, rfl⟩
  rw [lookup_of_mem_nodup hnd hp]
  simp [hmemf]

/-- The cleanup key filter matches the store filter via alignment. -/
theorem filter_cleanup_keys (S : List (Str × Int)) (cut : Int)
    (hnd : (S.map Prod.fst).Nodup) :
    (S.map Prod.fst).filter (fun k =>
        match S.lookup k with
        | some seenTime => decide (cut < seenTime)
        | none => false)
      = (S.filter (fun p => decide (cut < p.2))).map Prod.fst := by
  rw [List.filter_map]
  apply congrArg
  apply List.filter_congr
  intro p hp
  show (match S.lookup p.1 with
        | some seenTime => decide (cut < seenTime)
        | none => false) = decide (cut < p.2)
  rw [lookup_of_mem_nodup hnd hp]

/-- Under the alignment invariant, `cleanupOldEvents` keeps exactly the
entries whose first-seen instant is strictly inside the two-hour window. -/
theorem renoter_cleanup_eq (r : Renoter) (now : Int)
    (halign : r.eventStore.map Prod.fst = r.eventKeys)
    (hnodup : r.eventKeys.Nodup) :
    r.cleanupOldEvents now =
      { eventStore := r.eventStore.filter
          (fun p => decide (now - 2 * 3600 < p.2)),
        eventKeys := (r.eventStore.filter
          (fun p => decide (now - 2 * 3600 < p.2))).map Prod.fst,
        maxCacheSize := r.maxCacheSize } := by
  obtain ⟨S, K, M⟩ := r
  simp only at halign hnodup
  subst halign
  simp only [Renoter.cleanupOldEvents, Renoter.mk.injEq]
  refine ⟨?_, ?_, trivial⟩
  · exact filter_cleanup_store S (now - 2 * 3600) hnodup
  · exact filter_cleanup_keys S (now - 2 * 3600) hnodup

/-- On a cache miss with the age gate passed, `ProcessEvent` returns the
signature verdict, stores the id at instant `now` (surviving any prune),
and preserves alignment, key distinctness and the capacity bound. -/
theorem processEvent_miss_state (r : Renoter) (sigOK : Bool)
    (eventID : Str) (createdAt now : Int)
    (halign : r.eventStore.map Prod.fst = r.eventKeys)
    (hnodup : r.eventKeys.Nodup)
    (hmax : 1 ≤ r.maxCacheSize)
    (hage : ¬ (createdAt < now - 3600))
    (hmiss : ((r.cleanupOldEvents now).eventStore.lookup eventID) = none) :
    (r.ProcessEvent sigOK eventID createdAt now).1
        = (if sigOK then none else some ProcErr.badSig) ∧
    (eventID, now) ∈ (r.ProcessEvent sigOK eventID createdAt now).2.eventStore ∧
    (r.ProcessEvent sigOK eventID createdAt now).2.eventStore.map Prod.fst
        = (r.ProcessEvent sigOK eventID createdAt now).2.eventKeys ∧
    (r.ProcessEvent sigOK eventID createdAt now).2.eventKeys.Nodup ∧
    (r.ProcessEvent sigOK eventID createdAt now).2.maxCacheSize
        = r.maxCacheSize := by
  have hmaxC : (r.cleanupOldEvents now).maxCacheSize = r.maxCacheSize := rfl
  have halignC : (r.cleanupOldEvents now).eventStore.map Prod.fst
      = (r.cleanupOldEvents now).eventKeys := by
    rw [renoter_cleanup_eq r now halign hnodup]
  have hndS : (r.eventStore.map Prod.fst).Nodup := by rw [halign]; exact hnodup
  have hnodupC : (r.cleanupOldEvents now).eventKeys.Nodup := by
    rw [renoter_cleanup_eq r now halign hnodup]
    exact hndS.sublist ((List.filter_sublist _).map _)
  have hndCs : ((r.cleanupOldEvents now).eventStore.map Prod.fst).Nodup := by
    rw [halignC]; exact hnodupC
  have hnotmemK : eventID ∉ (r.cleanupOldEvents now).eventKeys := by
    rw [← halignC]
    intro hmm
    obtain ⟨p, hp, hpe⟩ := List.mem_map.mp hmm
    have hlk := lookup_of_mem_nodup hndCs hp
    rw [hpe, hmiss] at hlk
    cases hlk
  have hstep : r.ProcessEvent sigOK eventID createdAt now
      = (if sigOK then none else some ProcErr.badSig,
         if (r.cleanupOldEvents now).maxCacheSize
             < ((r.cleanupOldEvents now).eventKeys ++ [eventID]).length then
           { eventStore := ((r.cleanupOldEvents now).eventStore
               ++ [(eventID, now)]).filter (fun p => decide (p.1 ∉
                 (((r.cleanupOldEvents now).eventKeys ++ [eventID]).take
                   (if (r.cleanupOldEvents now).maxCacheSize / 4 = 0 then 1
                    else (r.cleanupOldEvents now).maxCacheSize / 4)))),
             eventKeys :=
               (((r.cleanupOldEvents now).eventKeys ++ [eventID]).drop
                 (if (r.cleanupOldEvents now).maxCacheSize / 4 = 0 then 1
                  else (r.cleanupOldEvents now).maxCacheSize / 4)),
             maxCacheSize := (r.cleanupOldEvents now).maxCacheSize }
         else
           { eventStore := (r.cleanupOldEvents now).eventStore
               ++ [(eventID, now)],
             eventKeys := (r.cleanupOldEvents now).eventKeys ++ [eventID],
             maxCacheSize := (r.cleanupOldEvents now).maxCacheSize }) := by
    simp only [Renoter.ProcessEvent]
    rw [if_neg hage]
    simp only [hmiss]
    cases sigOK <;> rfl
  rw [hstep]
  by_cases hpr : (r.cleanupOldEvents now).maxCacheSize
      < ((r.cleanupOldEvents now).eventKeys ++ [eventID]).length
  · rw [if_pos hpr]
    have hM : 1 ≤ (r.cleanupOldEvents now).maxCacheSize := by
      rw [hmaxC]; exact hmax
    have hlenK : (r.cleanupOldEvents now).maxCacheSize
        ≤ (r.cleanupOldEvents now).eventKeys.length := by
      rw [List.length_append, List.length_singleton] at hpr
      omega
    have hrcle : (if (r.cleanupOldEvents now).maxCacheSize / 4 = 0 then 1
        else (r.cleanupOldEvents now).maxCacheSize / 4)
        ≤ (r.cleanupOldEvents now).eventKeys.length := by
      split
      · omega
      · exact le_trans (Nat.div_le_self _ _) hlenK
    have hrcleS : (if (r.cleanupOldEvents now).maxCacheSize / 4 = 0 then 1
        else (r.cleanupOldEvents now).maxCacheSize / 4)
        ≤ (r.cleanupOldEvents now).eventStore.length := by
      have := congrArg List.length halignC
      rw [List.length_map] at this
      rw [this]
      exact hrcle
    have hmapapp : (((r.cleanupOldEvents now).eventStore
        ++ [(eventID, now)]).map Prod.fst)
        = (r.cleanupOldEvents now).eventKeys ++ [eventID] := by
      rw [List.map_append, halignC]
      rfl
    have hnd2 : ((((r.cleanupOldEvents now).eventStore
        ++ [(eventID, now)]).map Prod.fst)).Nodup := by
      rw [hmapapp, List.nodup_append]
      refine ⟨hnodupC, List.nodup_singleton _, ?_⟩
      intro a ha hb
      rw [List.mem_singleton] at hb
      subst hb
      exact hnotmemK ha
    rw [← hmapapp,
      filter_not_mem_take ((r.cleanupOldEvents now).eventStore
        ++ [(eventID, now)]) _ hnd2,
      hmapapp, drop_append_le hrcleS, drop_append_le hrcle]
    refine ⟨rfl, ?_, ?_, ?_, hmaxC⟩
    · exact List.mem_append.mpr (Or.inr (by simp))
    · rw [List.map_append, List.map_drop, halignC]
      rfl
    · rw [List.nodup_append]
      refine ⟨hnodupC.sublist (List.drop_sublist _ _),
        List.nodup_singleton _, ?_⟩
      intro a ha hb
      rw [List.mem_singleton] at hb
      subst hb
      exact hnotmemK ((List.drop_sublist _ _).subset ha)
  · rw [if_neg hpr]
    refine ⟨rfl, ?_, ?_, ?_, hmaxC⟩
    · exact List.mem_append.mpr (Or.inr (by simp))
    · rw [List.map_append, halignC]
      rfl
    · rw [List.nodup_append]
      refine ⟨hnodupC, List.nodup_singleton _, ?_⟩
      intro a ha hb
      rw [List.mem_singleton] at hb
      subst hb
      exact hnotmemK ha

/-- Whenever `ProcessEvent` succeeds, the id it just checked is in the
cache afterwards (the prune never drops the entry appended last, since at
least one slot's worth is removed from the front of the key list). -/
theorem processEvent_inserts (r : Renoter) (sigOK : Bool) (eventID : Str)
    (createdAt now : Int) (hmax : 1 ≤ r.maxCacheSize)
    (hres : (r.ProcessEvent sigOK eventID createdAt now).1 = none) :
    eventID ∈ (r.ProcessEvent sigOK eventID createdAt now).2.eventKeys := by
  have hmaxC : (r.cleanupOldEvents now).maxCacheSize = r.maxCacheSize := rfl
  simp only [Renoter.ProcessEvent] at hres ⊢
  by_cases hage : createdAt < now - 3600
  · rw [if_pos hage] at hres
    cases hres
  · rw [if_neg hage] at hres ⊢
    cases hlk : (r.cleanupOldEvents now).eventStore.lookup eventID with
    | some t =>
      simp only [hlk] at hres
      cases hres
    | none =>
      simp only [hlk] at hres ⊢
      cases sigOK with
      | false => simp at hres
      | true =>
        simp only [reduceIte]
        split
        · rename_i hpr
          have hM : 1 ≤ (r.cleanupOldEvents now).maxCacheSize := by
            rw [hmaxC]; exact hmax
          have hlenK : (r.cleanupOldEvents now).maxCacheSize
              ≤ (r.cleanupOldEvents now).eventKeys.length := by
            rw [List.length_append, List.length_singleton] at hpr
            omega
          have hrcle : (if (r.cleanupOldEvents now).maxCacheSize / 4 = 0
              then 1 else (r.cleanupOldEvents now).maxCacheSize / 4)
              ≤ (r.cleanupOldEvents now).eventKeys.length := by
            split
            · omega
            · exact le_trans (Nat.div_le_self _ _) hlenK
          rw [drop_append_le hrcle]
          exact List.mem_append.mpr (Or.inr (by simp))
        · exact List.mem_append.mpr (Or.inr (by simp))

/-- **C8.** The Peel Engine's age gate: `ProcessEvent` reports the age
error exactly for envelopes created strictly more than one hour before
`now` (the gate is the first check, so this holds for every cache state
and signature verdict); and the subscription loop never hands such an
envelope to `HandleEvent` — nothing is forwarded for it. -/
theorem c8_age_gate (r : Renoter) (sigOK : Bool) (eventID : Str)
    (createdAt now : Int) (st : SubLoopState) (sg : Bool) (ev : NEvent)
    (tnow : Int) (hold : ev.created_at + 3600 < tnow) :
    ((r.ProcessEvent sigOK eventID createdAt now).1 = some ProcErr.tooOld
      ↔ createdAt + 3600 < now) ∧
    (subLoopStep st sg ev tnow).handles = st.handles := by
  constructor
  · simp only [Renoter.ProcessEvent]
    by_cases hage : createdAt < now - 3600
    · rw [if_pos hage]
      simp only [true_iff]
      omega
    · rw [if_neg hage]
      constructor
      · intro h
        exfalso
        revert h
        cases (r.cleanupOldEvents now).eventStore.lookup eventID with
        | some t => simp
        | none =>
          simp only []
          split
          · simp
          · simp
      · intro h
        omega
  · by_cases h1 : ev.id ∈ st.processedEvents
    · rw [subLoopStep, if_pos h1]
    · by_cases h2 : ev.id ∈ st.processingEvents
      · rw [subLoopStep, if_neg h1, if_pos h2]
      · have hres : (st.renoter.ProcessEvent
              sg ev.id ev.created_at tnow).1 = some ProcErr.tooOld := by
          simp only [Renoter.ProcessEvent]
          rw [if_pos (by omega)]
        simp only [subLoopStep, if_neg h1, if_neg h2, hres]

/-- A minimal incoming envelope for loop-level witnesses. -/
def ev8 : NEvent :=
  { id := ('e') :: [], pubkey := [], created_at := 0, kind := 29001,
    tags := [], content := [], sig := [] }

/-- The loop's initial state: fresh `Renoter`, empty dedup maps. -/
def st0loop : SubLoopState :=
  { renoter := NewRenoter, processedEvents := [], processingEvents := [],
    handles := [] }

/-- Witness for C8 at a concrete stale envelope (created at 0, now 9999). -/
theorem c8_age_gate_witness :
    ((NewRenoter.ProcessEvent true (('a') :: []) 0 9999).1
        = some ProcErr.tooOld ↔ (0 : Int) + 3600 < 9999) ∧
    (subLoopStep st0loop true ev8 9999).handles = st0loop.handles :=
  c8_age_gate NewRenoter true (('a') :: []) 0 9999 st0loop true ev8 9999
    (by decide)

set_option maxHeartbeats 2000000 in
/-- **C9.** Forwarding is all-or-error on relay publishes and at-most-once
per id: a `publishFail` error is returned exactly on zero per-relay
successes; a published result carries the success count, which is at
least one; the subscription loop keeps the `HandleEvent` log duplicate
free (each forwarded id is marked processed, and processed ids are
skipped); and an id forwarded by this step is in the replay cache
afterwards — no retry or re-queue exists. -/
theorem c9_publish_gate_and_at_most_once (ops : PeelOps) (rnd : Nat → Nat)
    (event : NEvent) (st : SubLoopState) (sg : Bool) (ev : NEvent)
    (tnow : Int)
    (hmax : 1 ≤ st.renoter.maxCacheSize)
    (hnd : st.handles.Nodup)
    (hsub : ∀ i ∈ st.handles, i ∈ st.processedEvents) :
    (handleEvent ops rnd event = .errored .publishFail →
      ops.pubResults.count true = 0) ∧
    (∀ e2 n, handleEvent ops rnd event = .published e2 n →
      n = ops.pubResults.count true ∧ 1 ≤ n) ∧
    (subLoopStep st sg ev tnow).handles.Nodup ∧
    (∀ i ∈ (subLoopStep st sg ev tnow).handles,
      i ∈ (subLoopStep st sg ev tnow).processedEvents) ∧
    ((subLoopStep st sg ev tnow).handles ≠ st.handles →
      ev.id ∈ (subLoopStep st sg ev tnow).renoter.eventKeys) := by
  refine ⟨?_, ?_, ?_⟩
  · intro h
    rw [handleEvent] at h
    repeat' split at h
    all_goals (try simp_all)
  · intro e2 n h
    rw [handleEvent] at h
    repeat' split at h
    all_goals (try simp_all)
    all_goals omega
  · by_cases h1 : ev.id ∈ st.processedEvents
    · rw [subLoopStep, if_pos h1]
      exact ⟨hnd, hsub, fun hne => absurd rfl hne⟩
    · by_cases h2 : ev.id ∈ st.processingEvents
      · rw [subLoopStep, if_neg h1, if_pos h2]
        exact ⟨hnd, hsub, fun hne => absurd rfl hne⟩
      · cases hres : (st.renoter.ProcessEvent sg ev.id ev.created_at tnow).1 with
        | some e =>
          simp only [subLoopStep, if_neg h1, if_neg h2, hres]
          exact ⟨hnd, hsub, fun hne => absurd rfl hne⟩
        | none =>
          simp only [subLoopStep, if_neg h1, if_neg h2, hres]
          have hidh : ev.id ∉ st.handles := fun hmm => h1 (hsub _ hmm)
          refine ⟨?_, ?_, ?_⟩
          · rw [List.nodup_append]
            refine ⟨hnd, List.nodup_singleton _, ?_⟩
            intro a ha hb
            rw [List.mem_singleton] at hb
            subst hb
            exact hidh ha
          · intro i hi
            rcases List.mem_append.mp hi with hh | hh
            · exact List.mem_append.mpr (Or.inl (hsub _ hh))
            · exact List.mem_append.mpr (Or.inr hh)
          · intro _
            exact processEvent_inserts st.renoter sg ev.id ev.created_at
              tnow hmax hres

/-- Minimal peel collaborators for the C9 witness: two relays, one
accepting. -/
def c9ops : PeelOps :=
  { pub := [], verify := fun _ => false, decrypt := fun _ _ => none,
    parseEvt := fun _ => none, hashId := fun _ => [],
    convKey := fun _ _ => [], encrypt := fun _ _ => [],
    sign := fun _ _ => [], rewrapKey := ([], []), nowT := 0,
    pubResults := [true, false] }

/-- Witness for C9 on the initial loop state and a fresh envelope. -/
theorem c9_publish_gate_witness :
    (handleEvent c9ops (fun i => i) ev8 = .errored .publishFail →
      c9ops.pubResults.count true = 0) ∧
    (∀ e2 n, handleEvent c9ops (fun i => i) ev8 = .published e2 n →
      n = c9ops.pubResults.count true ∧ 1 ≤ n) ∧
    (subLoopStep st0loop true ev8 0).handles.Nodup ∧
    (∀ i ∈ (subLoopStep st0loop true ev8 0).handles,
      i ∈ (subLoopStep st0loop true ev8 0).processedEvents) ∧
    ((subLoopStep st0loop true ev8 0).handles ≠ st0loop.handles →
      ev8.id ∈ (subLoopStep st0loop true ev8 0).renoter.eventKeys) :=
  c9_publish_gate_and_at_most_once c9ops (fun i => i) ev8 st0loop true ev8 0
    (by decide) (by decide) (by decide)

/-- A stored id inside the two-hour window is reported as a replay by the
next `ProcessEvent` whose age gate passes. -/
theorem processEvent_hit (R : Renoter) (sigOK : Bool) (eventID : Str)
    (createdAt now t : Int)
    (halign : R.eventStore.map Prod.fst = R.eventKeys)
    (hnodup : R.eventKeys.Nodup)
    (hmem : (eventID, t) ∈ R.eventStore)
    (hage : ¬ (createdAt < now - 3600))
    (hfresh : now - 2 * 3600 < t) :
    (R.ProcessEvent sigOK eventID createdAt now).1 = some ProcErr.replay := by
  have hcl := renoter_cleanup_eq R now halign hnodup
  have hndbig : ((R.eventStore).map Prod.fst).Nodup := by
    rw [halign]; exact hnodup
  have hmemcl : (eventID, t) ∈ (R.cleanupOldEvents now).eventStore := by
    rw [hcl]
    refine List.mem_filter.mpr ⟨hmem, ?_⟩
    show decide (now - 2 * 3600 < t) = true
    rw [decide_eq_true_eq]
    omega
  have hndcl : (((R.cleanupOldEvents now).eventStore).map Prod.fst).Nodup := by
    rw [hcl]
    exact hndbig.sublist ((List.filter_sublist _).map _)
  have hlk2 : ((R.cleanupOldEvents now).eventStore).lookup eventID = some t :=
    lookup_of_mem_nodup hndcl hmemcl
  simp only [Renoter.ProcessEvent]
  rw [if_neg hage]
  simp only [hlk2]

/-- **C10.** `ProcessEvent` marks the id as seen before verifying the
signature and never removes it on a later validation failure: a first
arrival whose signature check fails still returns with the id stored at
instant `now`, and a second arrival of the same id inside the two-hour
cache window (with monotone clock and its own age gate passed) is
rejected as a replay — even though nothing was forwarded for that id. -/
theorem c10_mark_before_verify (r : Renoter) (eventID : Str)
    (createdAt now createdAt2 now2 : Int) (sigOK2 : Bool)
    (halign : r.eventStore.map Prod.fst = r.eventKeys)
    (hnodup : r.eventKeys.Nodup)
    (hmax : 1 ≤ r.maxCacheSize)
    (hage : ¬ (createdAt < now - 3600))
    (hmiss : ((r.cleanupOldEvents now).eventStore.lookup eventID) = none)
    (hage2 : ¬ (createdAt2 < now2 - 3600))
    (hmono : now ≤ now2) (hwin : now2 < now + 2 * 3600) :
    (r.ProcessEvent false eventID createdAt now).1 = some ProcErr.badSig ∧
    eventID ∈ (r.ProcessEvent false eventID createdAt now).2.eventKeys ∧
    ((r.ProcessEvent false eventID createdAt now).2.ProcessEvent sigOK2
        eventID createdAt2 now2).1 = some ProcErr.replay := by
  obtain ⟨hres1, hmem1, halign1, hnodup1, hmax1⟩ :=
    processEvent_miss_state r false eventID createdAt now halign hnodup
      hmax hage hmiss
  refine ⟨by simpa using hres1, ?_, ?_⟩
  · have : eventID ∈ (r.ProcessEvent false eventID createdAt now).2.eventStore.map
        Prod.fst := List.mem_map.mpr ⟨(eventID, now), hmem1, rfl⟩
    rw [halign1] at this
    exact this
  · exact processEvent_hit ((r.ProcessEvent false eventID createdAt now).2)
      sigOK2 eventID createdAt2 now2 now halign1 hnodup1 hmem1 hage2
      (by omega)

/-- Witness for C10: a fresh cache, a failed-signature arrival at time 0,
and a second arrival of the same id ten seconds later. -/
theorem c10_mark_before_verify_witness :
    (NewRenoter.ProcessEvent false (('a') :: []) 0 0).1
        = some ProcErr.badSig ∧
    (('a') :: []) ∈ (NewRenoter.ProcessEvent false (('a') :: []) 0 0).2.eventKeys ∧
    ((NewRenoter.ProcessEvent false (('a') :: []) 0 0).2.ProcessEvent true
        (('a') :: []) 10 10).1 = some ProcErr.replay :=
  c10_mark_before_verify NewRenoter (('a') :: []) 0 0 10 10 true
    (by decide) (by decide) (by decide) (by decide) (by decide) (by decide)
    (by decide) (by decide)
